import Mathlib

/-!
# Verification of the curator plan-execution core

This development embeds the core of the `curator` repository in Lean 4:
the path handling of Go's `path/filepath` package (Unix rules) as used by
the sources, the in-memory filesystem (`MemoryFileSystem`), the in-memory
and file-based operation stores (`MemoryOperationStore`,
`FileOperationStore`), and the plan execution engine
(`ExecutePlan` / `ResumePendingOperations`).

Conventions of the embedding:
* Go strings are Lean `String`s; Go byte slices holding a JSON-encoded
  step are modelled by the inductive `OpData` (`json.Marshal` of a move
  produces `OpData.move m`; `json.Unmarshal` succeeds exactly on such
  payloads, and `OpData.corrupt` stands for bytes that do not decode).
* `time.Now()` is modelled as the opaque constant `0`: no claim under
  verification observes wall-clock values, and the sorts by timestamp
  reduce to stable sorts of the insertion order, which is the order an
  execution with strictly increasing clock readings would produce.
* Go maps are modelled as association lists with replace-on-insert
  update; iteration order is the insertion order, a deterministic
  refinement of Go's randomized order (all properties proved here are
  insensitive to that order, or concern lists that the source sorts).
* Go's `error` results become `Except String` / `Option String`; the
  engine's distinguished `*ConflictError` type becomes the `GoErr`
  inductive, whose `conflict` constructor models the type assertion in
  `isConflictError`.
-/

deriving instance DecidableEq for Except

namespace Curator

/-! ## Go `path/filepath` on Unix

`splitSlash` splits a character list on `'/'` (keeping empty components,
as `strings.Split` would); `cleanParts` is the component-level core of
`filepath.Clean`: drop empty and `.` components, let `..` cancel a
preceding component, and drop `..` at the root.  `goClean`, `goJoin`,
`goDir`, `goBase` and `goRel` then mirror `filepath.Clean`, `Join`,
`Dir`, `Base` and `Rel` (for the slash-separated paths the repository
uses; `Rel` is only ever called on two absolute cleaned paths, where Go
returns no error). -/

def splitSlash : List Char → List (List Char)
  | [] => [[]]
  | c :: rest =>
    match splitSlash rest with
    | [] => [[]]
    | h :: t => if c = '/' then [] :: h :: t else (c :: h) :: t

theorem splitSlash_ne_nil (cs : List Char) : splitSlash cs ≠ [] := by
  cases cs with
  | nil => simp [splitSlash]
  | cons c rest =>
    simp only [splitSlash]
    cases splitSlash rest with
    | nil => simp
    | cons h t => by_cases hc : c = '/' <;> simp [hc]

theorem splitSlash_append (xs ys : List Char) :
    splitSlash (xs ++ '/' :: ys) = splitSlash xs ++ splitSlash ys := by
  induction xs with
  | nil =>
    simp only [List.nil_append, splitSlash]
    cases h : splitSlash ys with
    | nil => exact absurd h (splitSlash_ne_nil ys)
    | cons a t => rfl
  | cons c rest ih =>
    simp only [List.cons_append, splitSlash, List.append_eq]
    rw [ih]
    cases hr : splitSlash rest with
    | nil => exact absurd hr (splitSlash_ne_nil rest)
    | cons h t =>
      by_cases hc : c = '/' <;> simp [hc]

theorem splitSlash_of_no_slash (cs : List Char) (h : '/' ∉ cs) :
    splitSlash cs = [cs] := by
  induction cs with
  | nil => rfl
  | cons c rest ih =>
    simp only [List.mem_cons, not_or] at h
    simp only [splitSlash, ih h.2]
    have hc : c ≠ '/' := fun hc => h.1 hc.symm
    simp [hc]

theorem splitSlash_no_slash (cs : List Char) :
    ∀ p ∈ splitSlash cs, '/' ∉ p := by
  induction cs with
  | nil =>
    intro p hp
    simp only [splitSlash, List.mem_singleton] at hp
    subst hp; simp
  | cons c rest ih =>
    intro p hp
    simp only [splitSlash] at hp
    cases hr : splitSlash rest with
    | nil => exact absurd hr (splitSlash_ne_nil rest)
    | cons h t =>
      rw [hr] at hp
      by_cases hc : c = '/'
      · simp only [if_pos hc] at hp
        rcases List.mem_cons.mp hp with h1 | h1
        · subst h1; simp
        · exact ih p (hr ▸ h1)
      · simp only [if_neg hc] at hp
        rcases List.mem_cons.mp hp with h1 | h1
        · subst h1
          intro hmem
          rcases List.mem_cons.mp hmem with h2 | h2
          · exact hc h2.symm
          · exact ih h (hr ▸ List.mem_cons_self h t) h2
        · exact ih p (hr ▸ List.mem_cons_of_mem h h1)

/-- One step of the `filepath.Clean` element loop, on a reversed output
stack: ordinary components are pushed, `""` and `"."` are dropped, and
`".."` pops the stack (at the root, a `".."` that cannot pop is dropped;
this embedding is only used with `rooted = true`, matching the absolute
paths the repository manipulates, but the unrooted case is kept faithful
to Go). -/
def cleanStep (rooted : Bool) (stack : List (List Char)) (c : List Char) :
    List (List Char) :=
  if c = [] ∨ c = ['.'] then stack
  else if c = ['.', '.'] then
    match stack with
    | d :: rest => if d = ['.', '.'] then c :: stack else rest
    | [] => if rooted then [] else [c]
  else c :: stack

def cleanParts (rooted : Bool) (parts : List (List Char)) : List (List Char) :=
  (parts.foldl (cleanStep rooted) []).reverse

def joinSlash : List (List Char) → List Char
  | [] => []
  | [p] => p
  | p :: rest => p ++ '/' :: joinSlash rest

/-- Whether the path is absolute (`path[0] == '/'`). -/
def isRooted : List Char → Bool
  | '/' :: _ => true
  | _ => false

/-- `filepath.Clean` for slash-separated (Unix) paths. -/
def goClean (s : String) : String :=
  let cs := s.toList
  let rooted := isRooted cs
  let parts := cleanParts rooted (splitSlash cs)
  if rooted then ⟨'/' :: joinSlash parts⟩
  else if parts = [] then "." else ⟨joinSlash parts⟩

/-- `filepath.Join`: join the non-empty elements with `/` and `Clean`
the result; all elements empty gives `""`. -/
def goJoin (elems : List String) : String :=
  let ne := elems.filter (· ≠ "")
  match ne with
  | [] => ""
  | _ => goClean ⟨joinSlash (ne.map String.toList)⟩

/-- The characters of `path` up to and including the last `'/'`
(`filepath.Split`'s directory half); empty if there is no slash. -/
def dirChars (cs : List Char) : List Char :=
  (cs.reverse.dropWhile (· ≠ '/')).reverse

/-- `filepath.Dir`: everything but the last element, `Clean`ed;
`"."` when the path has no slash. -/
def goDir (s : String) : String :=
  goClean ⟨dirChars s.toList⟩

/-- `filepath.Base`: the last element of the path after trailing slashes
are removed; `"."` for the empty path, `"/"` for all-slash paths. -/
def goBase (s : String) : String :=
  if s = "" then "."
  else
    let cs := s.toList.reverse.dropWhile (· = '/')
    if cs = [] then "/" else ⟨(cs.takeWhile (· ≠ '/')).reverse⟩

/-- The cleaned component list of an absolute path: the view under which
containment in a root is decided. -/
def pathParts (s : String) : List (List Char) :=
  cleanParts true (splitSlash s.toList)

def commonPrefixLen : List (List Char) → List (List Char) → Nat
  | a :: as, b :: bs => if a = b then commonPrefixLen as bs + 1 else 0
  | _, _ => 0

/-- `filepath.Rel` for two absolute paths (the only use in the sources):
clean both, strip the common component prefix, and prepend one `..` per
remaining base component. -/
def goRel (base targ : String) : String :=
  let b := pathParts (goClean base)
  let t := pathParts (goClean targ)
  let n := commonPrefixLen b t
  let parts := List.replicate (b.length - n) ['.', '.'] ++ t.drop n
  if parts = [] then "." else ⟨joinSlash parts⟩

/-- Containment of one absolute path in another, at the level of cleaned
components: `a` is within `root` iff `root`'s components are a prefix of
`a`'s. -/
def withinRoot (root a : String) : Prop :=
  (pathParts root).IsPrefix (pathParts a)

instance (root a : String) : Decidable (withinRoot root a) :=
  inferInstanceAs (Decidable ((pathParts root).IsPrefix (pathParts a)))

/-! ## Association lists

Go maps are modelled as association lists with replace-on-insert
(`insertKey`), key lookup (`lookupKey`) and single-key removal
(`eraseKey`); iteration order is insertion order. -/

def lookupKey {α : Type} : List (String × α) → String → Option α
  | [], _ => none
  | (k, v) :: rest, q => if k = q then some v else lookupKey rest q

def insertKey {α : Type} : List (String × α) → String → α → List (String × α)
  | [], k, v => [(k, v)]
  | (k', v') :: rest, k, v =>
    if k' = k then (k, v) :: rest else (k', v') :: insertKey rest k v

def eraseKey {α : Type} : List (String × α) → String → List (String × α)
  | [], _ => []
  | (k', v') :: rest, k => if k' = k then rest else (k', v') :: eraseKey rest k

/-! ## Data model (`types.go`)

Go source: `src/unnamed/part_002`.  `MoveType` and `ExecutionStatus`
are string types in Go; they stay `String` here, with the constant
values `"FILE_MOVE"`, `"FOLDER_MOVE"`, `"CREATE_FOLDER"` and
`"IN_PROGRESS"`, `"COMPLETED"`, `"PARTIAL"`, `"FAILED"` used inline.
The Go field `Type` is spelled `Type'` because `Type` is reserved in
Lean. -/

structure Move where
  ID : String
  Source : String
  Destination : String
  Reason : String
  Type' : String
  FileCount : Int
  deriving Repr, DecidableEq

structure Summary where
  FoldersCreated : Int
  FilesMoved : Int
  FoldersMovedDeduplicated : Int
  DepthReduction : String
  OrganizationImprovement : String
  deriving Repr, DecidableEq

structure ReorganizationPlan where
  ID : String
  Timestamp : Nat
  Moves : List Move
  Summary : Summary
  Rationale : String
  deriving Repr, DecidableEq

structure CompletedMove where
  MoveID : String
  Timestamp : Nat
  deriving Repr, DecidableEq

structure FailedMove where
  MoveID : String
  Timestamp : Nat
  Error : String
  deriving Repr, DecidableEq

structure SkippedMove where
  MoveID : String
  Timestamp : Nat
  Reason : String
  deriving Repr, DecidableEq

structure ExecutionLog where
  PlanID : String
  Timestamp : Nat
  Status : String
  Completed : List CompletedMove
  Failed : List FailedMove
  Skipped : List SkippedMove
  deriving Repr, DecidableEq

/-- The `Data []byte` payload of a WAL record.  `json.Marshal` of a
`Move` yields `OpData.move m`; `json.Unmarshal` recovers exactly that
move.  `OpData.corrupt` stands for bytes that do not decode, and
`OpData.nil` for the empty payload of a completion marker. -/
inductive OpData where
  | move (m : Move)
  | corrupt
  | nil
  deriving Repr, DecidableEq

structure Operation where
  ID : String
  Type' : String
  Data : OpData
  Timestamp : Nat
  deriving Repr, DecidableEq

structure PlanSummary where
  ID : String
  Timestamp : Nat
  Status : String
  FileCount : Int
  MoveCount : Int
  deriving Repr, DecidableEq

/-! ## `MemoryFileSystem` (`memory_filesystem.go`, `src/unnamed/part_004`)

A flat map from cleaned path to node.  `time.Now()` values are the
opaque constant `0` (no claim observes them).  `Exists`, `CreateFolder`,
`AddFile` and `AddFolder` never return an error in the source; `Move`
returns the source's error strings. -/

structure MemFile where
  name : String
  path : String
  isDir : Bool
  size : Int
  modTime : Nat
  content : String
  mimeType : String
  deriving Repr, DecidableEq

structure MemoryFileSystem where
  files : List (String × MemFile)
  deriving Repr, DecidableEq

/-- `AddFolder` together with the `CreateFolder` calls it makes on the
parent chain.  The Go recursion `AddFolder → CreateFolder → AddFolder`
terminates because `filepath.Dir` shortens the path; the `fuel`
argument makes that measure explicit (callers pass `length + 2`, which
the termination argument shows is never exhausted). -/
def addFolderAux : Nat → MemoryFileSystem → String → MemoryFileSystem
  | 0, fs, _ => fs
  | fuel + 1, fs, path0 =>
    let path := goClean path0
    let name := goBase path
    let fs1 := if (lookupKey fs.files path).isSome then fs
      else ⟨insertKey fs.files path ⟨name, path, true, 0, 0, "", ""⟩⟩
    let dir := goDir path
    if dir ≠ "." ∧ dir ≠ "/" then
      -- CreateFolder(dir): return nil if it exists, else AddFolder(dir)
      if (lookupKey fs1.files dir).isSome then fs1 else addFolderAux fuel fs1 dir
    else fs1

def MemoryFileSystem.AddFolder (fs : MemoryFileSystem) (path : String) :
    MemoryFileSystem :=
  addFolderAux (path.length + 2) fs path

/-- `CreateFolder`: already-existing paths (directory **or** file) are
accepted silently; the returned Go error is always nil. -/
def MemoryFileSystem.CreateFolder (fs : MemoryFileSystem) (path : String) :
    MemoryFileSystem :=
  let p := goClean path
  if (lookupKey fs.files p).isSome then fs else fs.AddFolder p

def MemoryFileSystem.AddFile (fs : MemoryFileSystem)
    (path content mimeType : String) : MemoryFileSystem :=
  let p := goClean path
  let fs1 : MemoryFileSystem :=
    ⟨insertKey fs.files p ⟨goBase p, p, false, content.length, 0, content, mimeType⟩⟩
  let dir := goDir p
  if dir ≠ "." ∧ dir ≠ "/" then fs1.CreateFolder dir else fs1

/-- `Exists`: the in-memory backend never returns an error. -/
def MemoryFileSystem.Exists (fs : MemoryFileSystem) (path : String) : Bool :=
  (lookupKey fs.files (goClean path)).isSome

/-- `strings.HasPrefix(s, pre)`. -/
def goHasPrefix (s pre : String) : Bool := pre.toList.isPrefixOf s.toList

/-- `strings.HasSuffix(s, suff)`. -/
def goHasSuffix (s suff : String) : Bool := suff.toList.isSuffixOf s.toList

/-- `strings.Replace(s, pat, rep, 1)`: replace the first occurrence. -/
def replaceFirstAux : List Char → List Char → List Char → List Char
  | [], _, _ => []
  | c :: rest, pat, rep =>
    if pat.isPrefixOf (c :: rest) then rep ++ (c :: rest).drop pat.length
    else c :: replaceFirstAux rest pat rep

def replaceFirst (s pat rep : String) : String :=
  ⟨replaceFirstAux s.toList pat.toList rep.toList⟩

/-- The descendant-rewriting loop at the end of `Move`: for each
collected path, re-key the node at its rewritten path (updating the
node's `path` field) and delete the old key. -/
def moveDescendants (src dst : String) :
    List String → List (String × MemFile) → List (String × MemFile)
  | [], files => files
  | p :: rest, files =>
    match lookupKey files p with
    | none => moveDescendants src dst rest files
    | some f =>
      let np := replaceFirst p src dst
      moveDescendants src dst rest (eraseKey (insertKey files np { f with path := np }) p)

def MemoryFileSystem.Move (fs : MemoryFileSystem) (source destination : String) :
    Except String MemoryFileSystem :=
  let src := goClean source
  let dst := goClean destination
  match lookupKey fs.files src with
  | none => .error ("source file not found: " ++ src)
  | some file =>
    if (lookupKey fs.files dst).isSome then
      .error ("destination already exists: " ++ dst)
    else
      let dir := goDir dst
      let fs1 := if dir ≠ "." ∧ dir ≠ "/" then fs.CreateFolder dir else fs
      let newFile : MemFile :=
        ⟨goBase dst, dst, file.isDir, file.size, 0, file.content, file.mimeType⟩
      let files2 := eraseKey (insertKey fs1.files dst newFile) src
      if file.isDir then
        let pathsToMove :=
          (files2.map Prod.fst).filter (fun p => goHasPrefix p (src ++ "/"))
        .ok ⟨moveDescendants src dst pathsToMove files2⟩
      else .ok ⟨files2⟩

/-! ## `MemoryOperationStore` (`memory_store.go`)

Deep copies on write and read are identities under value semantics; the
mutation-isolation consequences of those copies are modelled separately
(see `AliasModel` below).  `SavePlan`, `LogOperation`,
`SaveExecutionLog` always return a nil error in the source and so are
plain state transformers here. -/

structure MemoryOperationStore where
  plans : List (String × ReorganizationPlan)
  operations : List (String × Operation)
  execLogs : List ExecutionLog
  deriving Repr, DecidableEq

def MemoryOperationStore.SavePlan (st : MemoryOperationStore)
    (plan : ReorganizationPlan) : MemoryOperationStore :=
  { st with plans := insertKey st.plans plan.ID plan }

def MemoryOperationStore.GetPlan (st : MemoryOperationStore) (id : String) :
    Except String ReorganizationPlan :=
  match lookupKey st.plans id with
  | some plan => .ok plan
  | none => .error ("plan not found: " ++ id)

def MemoryOperationStore.LogOperation (st : MemoryOperationStore)
    (op : Operation) : MemoryOperationStore :=
  { st with operations := insertKey st.operations op.ID op }

/-- Insertion step of `sort.Slice(pending, …Before…)`: ascending by
timestamp.  A stable insertion sort refines Go's unstable sort: with the
strictly increasing clock values of a real run the order is unique, and
every property proved here only uses membership. -/
def insertByTs (op : Operation) : List Operation → List Operation
  | [] => [op]
  | o :: rest =>
    if op.Timestamp < o.Timestamp then op :: o :: rest else o :: insertByTs op rest

def sortByTs (l : List Operation) : List Operation := l.foldr insertByTs []

def MemoryOperationStore.GetPendingOperations (st : MemoryOperationStore) :
    List Operation :=
  let pending := (st.operations.map Prod.snd).filter fun op =>
    op.Type' ≠ "completion_marker" ∧
      (lookupKey st.operations (op.ID ++ "_completed")).isNone
  sortByTs pending

def MemoryOperationStore.MarkOperationComplete (st : MemoryOperationStore)
    (id : String) : Except String MemoryOperationStore :=
  if (lookupKey st.operations id).isNone then
    .error ("operation not found: " ++ id)
  else
    .ok { st with
      operations := insertKey st.operations (id ++ "_completed")
        ⟨id ++ "_completed", "completion_marker", .nil, 0⟩ }

/-- `SaveExecutionLog` **appends** to the `execLogs` slice (it does not
key by plan id). -/
def MemoryOperationStore.SaveExecutionLog (st : MemoryOperationStore)
    (log : ExecutionLog) : MemoryOperationStore :=
  { st with execLogs := st.execLogs ++ [log] }

/-- Descending insertion step of `sort.Slice(logs, …After…)`. -/
def insertByTsDesc (log : ExecutionLog) : List ExecutionLog → List ExecutionLog
  | [] => [log]
  | l :: rest =>
    if log.Timestamp > l.Timestamp then log :: l :: rest
    else l :: insertByTsDesc log rest

def MemoryOperationStore.GetExecutionHistory (st : MemoryOperationStore) :
    List ExecutionLog :=
  st.execLogs.foldr insertByTsDesc []

/-! ## `ExecutionEngine` (`execution_engine.go`)

The engine variant with the dedicated `ConflictError` type — the one the
repository's execution-engine tests exercise.  It is embedded here
instantiated at `MemoryFileSystem` and `MemoryOperationStore` (the
reference backends); filesystem calls that can never fail on the
in-memory backend (`Exists`, `CreateFolder`) are noted inline. -/

/-- A Go `error` as classified by the engine: `conflict` is the
dedicated `*ConflictError` type, `fault` any other error.
`isConflictError` is the type assertion `err.(*ConflictError)`. -/
inductive GoErr where
  | conflict (msg : String)
  | fault (msg : String)
  deriving Repr, DecidableEq

def GoErr.message : GoErr → String
  | .conflict m => m
  | .fault m => m

def isConflictError : GoErr → Bool
  | .conflict _ => true
  | .fault _ => false

/-- `ExecutionEngine.executeMove`: the per-step semantics. -/
def executeMove (fs : MemoryFileSystem) (move : Move) :
    Except GoErr MemoryFileSystem :=
  if move.Type' = "CREATE_FOLDER" then
    -- MemoryFileSystem.CreateFolder never returns an error
    .ok (fs.CreateFolder move.Destination)
  else if move.Type' = "FILE_MOVE" then
    -- Exists never errors on the in-memory backend
    if ¬ fs.Exists move.Source then
      .error (.conflict ("source file no longer exists: " ++ move.Source))
    else if fs.Exists move.Destination then
      .error (.conflict ("destination already exists: " ++ move.Destination))
    else
      let destDir := goDir move.Destination
      let fs1 := fs.CreateFolder destDir
      match fs1.Move move.Source move.Destination with
      | .ok fs2 => .ok fs2
      | .error e => .error (.fault e)
  else if move.Type' = "FOLDER_MOVE" then
    if ¬ fs.Exists move.Source then
      .error (.conflict ("source folder no longer exists: " ++ move.Source))
    else if fs.Exists move.Destination then
      .error (.conflict ("destination already exists: " ++ move.Destination))
    else
      let destParent := goDir move.Destination
      let fs1 := fs.CreateFolder destParent
      match fs1.Move move.Source move.Destination with
      | .ok fs2 => .ok fs2
      | .error e => .error (.fault e)
  else .error (.fault ("unknown move type: " ++ move.Type'))

/-- The `(*ExecutionLog, error)` pair `ExecutePlan` returns, together
with the final filesystem and store states. -/
structure RunResult where
  fs : MemoryFileSystem
  store : MemoryOperationStore
  log : Option ExecutionLog
  err : Option String
  deriving Repr, DecidableEq

inductive LoopOut where
  | early (r : RunResult)
  | done (fs : MemoryFileSystem) (st : MemoryOperationStore) (log : ExecutionLog)
  deriving Repr, DecidableEq

/-- The per-step loop of `ExecutePlan`: WAL append, attempt, classify,
completion marker, checkpoint.  On a fault with `failFast` set the run
stops with status `FAILED` before the completion marker is written,
returning the log and an error — exactly the source's early `return`. -/
def executeLoop (planID : String) (failFast : Bool) :
    List Move → MemoryFileSystem → MemoryOperationStore → ExecutionLog → LoopOut
  | [], fs, st, log => .done fs st log
  | move :: rest, fs, st, log =>
    -- json.Marshal(move) cannot fail for these payloads
    let opID := planID ++ "-" ++ move.ID
    let operation : Operation := ⟨opID, "move", .move move, 0⟩
    let st1 := st.LogOperation operation   -- nil error on the memory store
    match executeMove fs move with
    | .error e =>
      if isConflictError e then
        let log1 := { log with
          Skipped := log.Skipped ++ [⟨move.ID, 0, "Conflict: " ++ e.message⟩] }
        match st1.MarkOperationComplete opID with
        | .error e2 =>
          .early ⟨fs, st1, none, some ("failed to mark operation complete: " ++ e2)⟩
        | .ok st2 =>
          executeLoop planID failFast rest fs (st2.SaveExecutionLog log1) log1
      else
        let log1 := { log with
          Failed := log.Failed ++ [⟨move.ID, 0, e.message⟩] }
        if failFast then
          let log2 := { log1 with Status := "FAILED" }
          let st2 := st1.SaveExecutionLog log2
          .early ⟨fs, st2, some log2,
            some ("execution failed (fail-fast enabled): " ++ e.message)⟩
        else
          match st1.MarkOperationComplete opID with
          | .error e2 =>
            .early ⟨fs, st1, none, some ("failed to mark operation complete: " ++ e2)⟩
          | .ok st2 =>
            executeLoop planID failFast rest fs (st2.SaveExecutionLog log1) log1
    | .ok fs1 =>
      let log1 := { log with Completed := log.Completed ++ [⟨move.ID, 0⟩] }
      match st1.MarkOperationComplete opID with
      | .error e2 =>
        .early ⟨fs1, st1, none, some ("failed to mark operation complete: " ++ e2)⟩
      | .ok st2 =>
        executeLoop planID failFast rest fs1 (st2.SaveExecutionLog log1) log1

/-- The "Determine final status" block at the end of `ExecutePlan`. -/
def finalStatus (log : ExecutionLog) : String :=
  if log.Failed.length > 0 then
    if log.Completed.length > 0 then "PARTIAL" else "FAILED"
  else if log.Skipped.length > 0 then "PARTIAL"
  else "COMPLETED"

/-- `ExecutionEngine.ExecutePlan`. -/
def ExecutePlan (planID : String) (failFast : Bool) (fs : MemoryFileSystem)
    (st : MemoryOperationStore) : RunResult :=
  match st.GetPlan planID with
  | .error e => ⟨fs, st, none, some ("failed to get plan: " ++ e)⟩
  | .ok plan =>
    let execLog : ExecutionLog := ⟨planID, 0, "IN_PROGRESS", [], [], []⟩
    let st1 := st.SaveExecutionLog execLog   -- initial checkpoint
    match executeLoop planID failFast plan.Moves fs st1 execLog with
    | .early r => r
    | .done fs2 st2 log =>
      let log2 := { log with Status := finalStatus log }
      let st3 := st2.SaveExecutionLog log2
      ⟨fs2, st3, some log2, none⟩

/-- The per-record body of `ResumePendingOperations`: only records of
type `"move"` are handled; an undecodable payload is skipped with a
printed message and **no** completion marker; the marker write's error
is printed and otherwise ignored. -/
def resumeLoop : List Operation → MemoryFileSystem → MemoryOperationStore →
    MemoryFileSystem × MemoryOperationStore
  | [], fs, st => (fs, st)
  | op :: rest, fs, st =>
    if op.Type' = "move" then
      match op.Data with
      | .move mv =>
        let fs1 := match executeMove fs mv with
          | .ok f => f
          | .error _ => fs
        let st1 := match st.MarkOperationComplete op.ID with
          | .ok s => s
          | .error _ => st
        resumeLoop rest fs1 st1
      | _ => resumeLoop rest fs st
    else resumeLoop rest fs st

/-- `ExecutionEngine.ResumePendingOperations` (always returns nil on the
memory store, whose `GetPendingOperations` cannot fail). -/
def ResumePendingOperations (fs : MemoryFileSystem)
    (st : MemoryOperationStore) : MemoryFileSystem × MemoryOperationStore :=
  resumeLoop st.GetPendingOperations fs st

/-! ## Association-list lemmas -/

theorem lookupKey_insertKey_self {α : Type} (l : List (String × α)) (k : String)
    (v : α) : lookupKey (insertKey l k v) k = some v := by
  induction l with
  | nil => simp [insertKey, lookupKey]
  | cons e rest ih =>
    obtain ⟨k', v'⟩ := e
    by_cases h : k' = k
    · simp [insertKey, h, lookupKey]
    · simp [insertKey, h, lookupKey, ih]

theorem lookupKey_insertKey_ne {α : Type} (l : List (String × α)) (k q : String)
    (v : α) (h : q ≠ k) : lookupKey (insertKey l k v) q = lookupKey l q := by
  have hkq : ¬ (k = q) := fun hh => h hh.symm
  induction l with
  | nil => simp [insertKey, lookupKey, hkq]
  | cons e rest ih =>
    obtain ⟨k', v'⟩ := e
    by_cases hk : k' = k
    · subst hk
      simp [insertKey, lookupKey, hkq]
    · by_cases hq : k' = q
      · simp [insertKey, hk, lookupKey, hq, hkq, h]
      · simp [insertKey, hk, lookupKey, hq, ih]

theorem isSome_lookupKey_insertKey {α : Type} (l : List (String × α))
    (k q : String) (v : α) (h : (lookupKey l q).isSome) :
    (lookupKey (insertKey l k v) q).isSome := by
  by_cases hq : q = k
  · subst hq; simp [lookupKey_insertKey_self]
  · rw [lookupKey_insertKey_ne l k q v hq]; exact h

theorem mem_insertKey {α : Type} (l : List (String × α)) (k : String) (v : α)
    (e : String × α) (h : e ∈ insertKey l k v) : e ∈ l ∨ e = (k, v) := by
  induction l with
  | nil => simp [insertKey] at h; right; exact h
  | cons e' rest ih =>
    obtain ⟨k', v'⟩ := e'
    by_cases hk : k' = k
    · simp only [insertKey, if_pos hk] at h
      rcases List.mem_cons.mp h with h1 | h1
      · right; exact h1
      · left; exact List.mem_cons_of_mem _ h1
    · simp only [insertKey, if_neg hk] at h
      rcases List.mem_cons.mp h with h1 | h1
      · left; exact h1 ▸ List.mem_cons_self _ _
      · rcases ih h1 with h2 | h2
        · left; exact List.mem_cons_of_mem _ h2
        · right; exact h2

theorem lookupKey_isSome_of_mem {α : Type} (l : List (String × α))
    (k : String) (v : α) (h : (k, v) ∈ l) : (lookupKey l k).isSome := by
  induction l with
  | nil => simp at h
  | cons e rest ih =>
    obtain ⟨k', v'⟩ := e
    rcases List.mem_cons.mp h with h1 | h1
    · obtain ⟨h2, _⟩ := Prod.mk.injEq .. ▸ h1
      simp [lookupKey, h2.symm]
    · by_cases hk : k' = k
      · simp [lookupKey, hk]
      · simpa [lookupKey, hk] using ih h1

theorem mem_insertByTs (x op : Operation) (l : List Operation) :
    op ∈ insertByTs x l ↔ op = x ∨ op ∈ l := by
  induction l with
  | nil => simp [insertByTs]
  | cons o rest ih =>
    simp only [insertByTs]
    by_cases h : x.Timestamp < o.Timestamp
    · simp [h]
    · simp only [if_neg h, List.mem_cons, ih]
      tauto

theorem mem_sortByTs (op : Operation) (l : List Operation) :
    op ∈ sortByTs l ↔ op ∈ l := by
  induction l with
  | nil => simp [sortByTs]
  | cons o rest ih =>
    simp only [sortByTs, List.foldr_cons] at *
    rw [mem_insertByTs, ih, List.mem_cons]

theorem sortByTs_eq_nil (l : List Operation) : sortByTs l = [] ↔ l = [] := by
  constructor
  · intro h
    cases l with
    | nil => rfl
    | cons o rest =>
      exfalso
      have : o ∈ sortByTs (o :: rest) := (mem_sortByTs o _).mpr (List.mem_cons_self o rest)
      rw [h] at this
      simp at this
  · intro h; subst h; rfl

/-! ## Engine loop lemmas -/

theorem append_completed_ne (s : String) : s ++ "_completed" ≠ s := by
  intro h
  have h2 := congrArg String.length h
  simp [String.length_append] at h2
  exact absurd h2 (by decide)

/-- The operations map after a record insert and its completion-marker
insert. -/
def withMarked (ops : List (String × Operation)) (id : String)
    (op : Operation) : List (String × Operation) :=
  insertKey (insertKey ops id op) (id ++ "_completed")
    ⟨id ++ "_completed", "completion_marker", .nil, 0⟩

/-- `MarkOperationComplete` succeeds on an id that was just logged. -/
theorem markComplete_of_logged (st : MemoryOperationStore) (op : Operation) :
    (st.LogOperation op).MarkOperationComplete op.ID =
      .ok { st with operations := withMarked st.operations op.ID op } := by
  simp [MemoryOperationStore.MarkOperationComplete, MemoryOperationStore.LogOperation,
    lookupKey_insertKey_self, withMarked]

/-- The store after one loop iteration's WAL writes: the step's record
followed by its completion marker. -/
def afterMarkOps (pid : String) (mv : Move) (st : MemoryOperationStore) :
    MemoryOperationStore :=
  { st with operations := withMarked st.operations (pid ++ "-" ++ mv.ID) ⟨pid ++ "-" ++ mv.ID, "move", .move mv, 0⟩ }

def logSkip (log : ExecutionLog) (mv : Move) (e : GoErr) : ExecutionLog :=
  { log with Skipped := log.Skipped ++ [⟨mv.ID, 0, "Conflict: " ++ e.message⟩] }

def logFail (log : ExecutionLog) (mv : Move) (e : GoErr) : ExecutionLog :=
  { log with Failed := log.Failed ++ [⟨mv.ID, 0, e.message⟩] }

def logComp (log : ExecutionLog) (mv : Move) : ExecutionLog :=
  { log with Completed := log.Completed ++ [⟨mv.ID, 0⟩] }

/-- Reduction of one loop iteration: since the record was just appended,
the completion-marker write always succeeds (its error branch is dead),
leaving the three live continuations. -/
theorem executeLoop_cons (pid : String) (ff : Bool) (mv : Move)
    (rest : List Move) (fs : MemoryFileSystem) (st : MemoryOperationStore)
    (log : ExecutionLog) :
    executeLoop pid ff (mv :: rest) fs st log =
      match executeMove fs mv with
      | .error e =>
        if isConflictError e then
          executeLoop pid ff rest fs
            ((afterMarkOps pid mv st).SaveExecutionLog (logSkip log mv e))
            (logSkip log mv e)
        else if ff then
          .early ⟨fs,
            (st.LogOperation ⟨pid ++ "-" ++ mv.ID, "move", .move mv, 0⟩).SaveExecutionLog
              { logFail log mv e with Status := "FAILED" },
            some { logFail log mv e with Status := "FAILED" },
            some ("execution failed (fail-fast enabled): " ++ e.message)⟩
        else
          executeLoop pid ff rest fs
            ((afterMarkOps pid mv st).SaveExecutionLog (logFail log mv e))
            (logFail log mv e)
      | .ok fs1 =>
        executeLoop pid ff rest fs1
          ((afterMarkOps pid mv st).SaveExecutionLog (logComp log mv))
          (logComp log mv) := by
  simp only [executeLoop]
  cases hm : executeMove fs mv with
  | error e =>
    by_cases hc : isConflictError e = true
    · simp only [hc, if_true]
      rw [markComplete_of_logged st ⟨pid ++ "-" ++ mv.ID, "move", .move mv, 0⟩]
      simp [afterMarkOps, logSkip, withMarked]
    · simp only [Bool.not_eq_true] at hc
      simp only [hc, Bool.false_eq_true, if_false]
      by_cases hff : ff
      · simp [hff, logFail]
      · simp only [hff, if_false]
        rw [markComplete_of_logged st ⟨pid ++ "-" ++ mv.ID, "move", .move mv, 0⟩]
        simp [afterMarkOps, logFail, withMarked]
  | ok fs1 =>
    rw [markComplete_of_logged st ⟨pid ++ "-" ++ mv.ID, "move", .move mv, 0⟩]
    simp [afterMarkOps, logComp, withMarked]

/-- Every early exit of the loop carries an error. -/
theorem executeLoop_early_err (pid : String) (ff : Bool) (moves : List Move) :
    ∀ fs st log r, executeLoop pid ff moves fs st log = .early r →
      r.err.isSome := by
  induction moves with
  | nil => intro fs st log r h; simp [executeLoop] at h
  | cons mv rest ih =>
    intro fs st log r h
    rw [executeLoop_cons] at h
    cases hm : executeMove fs mv with
    | error e =>
      rw [hm] at h
      by_cases hc : isConflictError e = true
      · simp only [hc, if_true] at h
        exact ih _ _ _ _ h
      · simp only [Bool.not_eq_true] at hc
        simp only [hc, Bool.false_eq_true, if_false] at h
        cases hff : ff with
        | true =>
          rw [hff] at h
          simp only [if_true] at h
          cases h
          simp
        | false =>
          rw [hff] at h
          simp only [Bool.false_eq_true, if_false] at h
          rw [← hff] at h
          exact ih _ _ _ _ h
    | ok fs1 =>
      rw [hm] at h
      exact ih _ _ _ _ h

/-- `ExecutePlan` reduced on the not-found branch. -/
theorem ExecutePlan_notfound (planID : String) (ff : Bool)
    (fs : MemoryFileSystem) (st : MemoryOperationStore) (e : String)
    (hp : st.GetPlan planID = .error e) :
    ExecutePlan planID ff fs st = ⟨fs, st, none, some ("failed to get plan: " ++ e)⟩ := by
  unfold ExecutePlan
  rw [hp]

/-- `ExecutePlan` reduced on an early loop exit. -/
theorem ExecutePlan_early (planID : String) (ff : Bool)
    (fs : MemoryFileSystem) (st : MemoryOperationStore)
    (plan : ReorganizationPlan) (r : RunResult)
    (hp : st.GetPlan planID = .ok plan)
    (hl : executeLoop planID ff plan.Moves fs
      (st.SaveExecutionLog ⟨planID, 0, "IN_PROGRESS", [], [], []⟩)
      ⟨planID, 0, "IN_PROGRESS", [], [], []⟩ = .early r) :
    ExecutePlan planID ff fs st = r := by
  unfold ExecutePlan
  rw [hp]
  simp only
  rw [hl]

/-- `ExecutePlan` reduced on a completed loop. -/
theorem ExecutePlan_done (planID : String) (ff : Bool)
    (fs : MemoryFileSystem) (st : MemoryOperationStore)
    (plan : ReorganizationPlan) (fs2 : MemoryFileSystem)
    (st2 : MemoryOperationStore) (log : ExecutionLog)
    (hp : st.GetPlan planID = .ok plan)
    (hl : executeLoop planID ff plan.Moves fs
      (st.SaveExecutionLog ⟨planID, 0, "IN_PROGRESS", [], [], []⟩)
      ⟨planID, 0, "IN_PROGRESS", [], [], []⟩ = .done fs2 st2 log) :
    ExecutePlan planID ff fs st =
      ⟨fs2, st2.SaveExecutionLog { log with Status := finalStatus log },
        some { log with Status := finalStatus log }, none⟩ := by
  unfold ExecutePlan
  rw [hp]
  simp only
  rw [hl]

/-! ## C1: the terminal status is the pure function of the outcome lists
tabulated in spec §4.3 step 4. -/

/-- Spec §4.3 step 4, verbatim: failed∧completed → partial;
failed∧¬completed → failed; ¬failed∧skipped → partial; otherwise
completed. -/
def terminalStatusSpec (nFailed nCompleted nSkipped : Nat) : String :=
  if nFailed ≠ 0 ∧ nCompleted ≠ 0 then "PARTIAL"
  else if nFailed ≠ 0 then "FAILED"
  else if nSkipped ≠ 0 then "PARTIAL"
  else "COMPLETED"

theorem finalStatus_eq_spec (log : ExecutionLog) :
    finalStatus log =
      terminalStatusSpec log.Failed.length log.Completed.length log.Skipped.length := by
  unfold finalStatus terminalStatusSpec
  split_ifs <;> first | rfl | omega

/-- C1 — For every run of `ExecutePlan` that processes all steps to
completion (no early return, i.e. the returned Go error is nil), the
terminal status of the returned execution log is the pure function of
the three outcome lists tabulated in spec §4.3 step 4. -/
theorem C1_terminal_status (planID : String) (ff : Bool)
    (fs : MemoryFileSystem) (st : MemoryOperationStore)
    (hok : (ExecutePlan planID ff fs st).err = none) :
    (ExecutePlan planID ff fs st).log.map (fun l => l.Status) =
      (ExecutePlan planID ff fs st).log.map
        (fun l => terminalStatusSpec l.Failed.length l.Completed.length l.Skipped.length) := by
  cases hp : st.GetPlan planID with
  | error e =>
    rw [ExecutePlan_notfound planID ff fs st e hp] at hok
    simp at hok
  | ok plan =>
    cases hl : executeLoop planID ff plan.Moves fs
        (st.SaveExecutionLog ⟨planID, 0, "IN_PROGRESS", [], [], []⟩)
        ⟨planID, 0, "IN_PROGRESS", [], [], []⟩ with
    | early r =>
      rw [ExecutePlan_early planID ff fs st plan r hp hl] at hok
      have h2 := executeLoop_early_err planID ff plan.Moves _ _ _ r hl
      rw [hok] at h2
      simp at h2
    | done fs2 st2 log =>
      rw [ExecutePlan_done planID ff fs st plan fs2 st2 log hp hl]
      simp [finalStatus_eq_spec]

/-! ## Fixtures for witnesses and counterexamples -/

def emptyStore : MemoryOperationStore := ⟨[], [], []⟩

def fsEmpty : MemoryFileSystem := ⟨[]⟩

/-- Scenario S1: `/a.txt` with content `"x"`. -/
def fsP1 : MemoryFileSystem := fsEmpty.AddFile "/a.txt" "x" "text/plain"

def mvP1a : Move := ⟨"s1", "", "/D", "create D", "CREATE_FOLDER", 0⟩

def mvP1b : Move := ⟨"s2", "/a.txt", "/D/a.txt", "move a", "FILE_MOVE", 1⟩

def planP1 : ReorganizationPlan := ⟨"P1", 0, [mvP1a, mvP1b], ⟨1, 1, 0, "", ""⟩, "happy path"⟩

def stP1 : MemoryOperationStore := emptyStore.SavePlan planP1

/-- Scenario S3: a single move of a nonexistent source, empty backend. -/
def mvP3 : Move := ⟨"s1", "/x", "/D/x", "move x", "FILE_MOVE", 1⟩

def planP3 : ReorganizationPlan := ⟨"P3", 0, [mvP3], ⟨0, 1, 0, "", ""⟩, "fail-fast"⟩

def stP3 : MemoryOperationStore := emptyStore.SavePlan planP3

theorem C1_terminal_status_witness :
    (ExecutePlan "P1" false fsP1 stP1).log.map (fun l => l.Status) =
      (ExecutePlan "P1" false fsP1 stP1).log.map
        (fun l => terminalStatusSpec l.Failed.length l.Completed.length l.Skipped.length) :=
  C1_terminal_status "P1" false fsP1 stP1 (by decide)

/-! ## C3: a missing source under fail-fast is a skip, not an abort —
but the resulting status is `PARTIAL`, not `FAILED` as claimed. -/

theorem executeMove_conflict_src (fs : MemoryFileSystem) (mv : Move)
    (hty : mv.Type' = "FILE_MOVE") (hsrc : fs.Exists mv.Source = false) :
    executeMove fs mv =
      .error (.conflict ("source file no longer exists: " ++ mv.Source)) := by
  simp [executeMove, hty, hsrc]

/-- C3 (counterexample) — On the empty backend, executing plan `P3`
(`[s1 : move-file /x → /D/x]`) with fail-fast returns status `PARTIAL`,
not `FAILED` as the claim states (the skip and the non-abort are as
claimed). -/
theorem C3_counterexample :
    (ExecutePlan "P3" true fsEmpty stP3).log.map (fun l => l.Status) = some "PARTIAL" ∧
      (ExecutePlan "P3" true fsEmpty stP3).log.map (fun l => l.Status) ≠ some "FAILED" ∧
      (ExecutePlan "P3" true fsEmpty stP3).err = none ∧
      (ExecutePlan "P3" true fsEmpty stP3).log.map (fun l => l.Skipped.length) = some 1 := by
  decide

/-- C3 (amended) — For a plan whose only step is a move-file step whose
source does not exist, `ExecutePlan` with fail-fast does not abort: the
step is recorded as a skip (missing source is a conflict) and the
returned log has status `PARTIAL`. -/
theorem C3_fail_fast_conflict (fs : MemoryFileSystem)
    (st : MemoryOperationStore) (planID : String)
    (plan : ReorganizationPlan) (mv : Move)
    (hplan : st.GetPlan planID = .ok plan)
    (hmoves : plan.Moves = [mv])
    (hty : mv.Type' = "FILE_MOVE")
    (hsrc : fs.Exists mv.Source = false) :
    (ExecutePlan planID true fs st).err = none ∧
      (ExecutePlan planID true fs st).log.map (fun l => l.Status) = some "PARTIAL" ∧
      (ExecutePlan planID true fs st).log.map (fun l => l.Failed) = some [] ∧
      (ExecutePlan planID true fs st).log.map (fun l => l.Completed) = some [] ∧
      (ExecutePlan planID true fs st).log.map (fun l => l.Skipped.map (fun sk => sk.MoveID)) =
        some [mv.ID] := by
  have hl : executeLoop planID true plan.Moves fs
      (st.SaveExecutionLog ⟨planID, 0, "IN_PROGRESS", [], [], []⟩)
      ⟨planID, 0, "IN_PROGRESS", [], [], []⟩ =
      .done fs
        ((afterMarkOps planID mv
          (st.SaveExecutionLog ⟨planID, 0, "IN_PROGRESS", [], [], []⟩)).SaveExecutionLog
            (logSkip ⟨planID, 0, "IN_PROGRESS", [], [], []⟩ mv
              (.conflict ("source file no longer exists: " ++ mv.Source))))
        (logSkip ⟨planID, 0, "IN_PROGRESS", [], [], []⟩ mv
          (.conflict ("source file no longer exists: " ++ mv.Source))) := by
    rw [hmoves, executeLoop_cons, executeMove_conflict_src fs mv hty hsrc]
    simp [isConflictError, executeLoop]
  rw [ExecutePlan_done planID true fs st plan _ _ _ hplan hl]
  simp [logSkip, finalStatus]

/-! ## Cleanliness of `goClean` output and idempotence

`wfe p` says a component survives cleaning untouched; `goClean`'s output
components are `wfe` (plus leading `..` components for unrooted paths),
which gives `goClean (goClean s) = goClean s`. -/

def wfe (p : List Char) : Prop := p ≠ [] ∧ p ≠ ['.'] ∧ p ≠ ['.', '.']

instance (p : List Char) : Decidable (wfe p) := by
  unfold wfe
  infer_instance

theorem cleanStep_push (r : Bool) (acc : List (List Char)) (c : List Char)
    (h : wfe c) : cleanStep r acc c = c :: acc := by
  obtain ⟨h1, h2, h3⟩ := h
  simp [cleanStep, h1, h2, h3]

theorem foldl_cleanStep_push (r : Bool) (l : List (List Char))
    (h : ∀ p ∈ l, wfe p) :
    ∀ acc, List.foldl (cleanStep r) acc l = l.reverse ++ acc := by
  induction l with
  | nil => intro acc; simp
  | cons c rest ih =>
    intro acc
    have hc : wfe c := h c (List.mem_cons_self c rest)
    rw [List.foldl_cons, cleanStep_push r acc c hc,
      ih (fun p hp => h p (List.mem_cons_of_mem c hp))]
    simp

theorem cleanParts_fix_rooted (l : List (List Char)) (h : ∀ p ∈ l, wfe p) :
    cleanParts true l = l := by
  unfold cleanParts
  rw [foldl_cleanStep_push true l h []]
  simp

/-- Entries of the rooted clean stack are well-formed and inherit any
predicate `P` satisfied by the non-dropped input components. -/
theorem foldl_cleanStep_true_pred (P : List Char → Prop) :
    ∀ (parts : List (List Char)), (∀ c ∈ parts, c = [] ∨ c = ['.'] ∨ c = ['.', '.'] ∨ P c) →
    ∀ acc, (∀ q ∈ acc, wfe q ∧ P q) →
    ∀ p ∈ List.foldl (cleanStep true) acc parts, wfe p ∧ P p := by
  intro parts
  induction parts with
  | nil => intro _ acc hacc p hp; exact hacc p hp
  | cons c rest ih =>
    intro hparts acc hacc p hp
    rw [List.foldl_cons] at hp
    have hrest : ∀ x ∈ rest, x = [] ∨ x = ['.'] ∨ x = ['.', '.'] ∨ P x :=
      fun x hx => hparts x (List.mem_cons_of_mem c hx)
    refine ih hrest (cleanStep true acc c) ?_ p hp
    intro q hq
    by_cases h1 : c = [] ∨ c = ['.']
    · rw [show cleanStep true acc c = acc by simp [cleanStep, h1]] at hq
      exact hacc q hq
    · by_cases h2 : c = ['.', '.']
      · subst h2
        simp only [cleanStep, h1, if_false, if_pos rfl] at hq
        cases hacs : acc with
        | nil => rw [hacs] at hq; simp at hq
        | cons d rest2 =>
          rw [hacs] at hq
          have hd : wfe d ∧ P d := hacc d (hacs ▸ List.mem_cons_self d rest2)
          have hdne : d ≠ ['.', '.'] := hd.1.2.2
          simp only [hdne, if_false] at hq
          exact hacc q (hacs ▸ List.mem_cons_of_mem d hq)
      · have hwfe : wfe c := by
          push_neg at h1
          exact ⟨h1.1, h1.2, h2⟩
        rw [cleanStep_push true acc c hwfe] at hq
        rcases List.mem_cons.mp hq with hq1 | hq1
        · subst hq1
          have hPc : P q := by
            rcases hparts q (List.mem_cons_self _ _) with h | h | h | h
            · exact absurd h hwfe.1
            · exact absurd h hwfe.2.1
            · exact absurd h hwfe.2.2
            · exact h
          exact ⟨hwfe, hPc⟩
        · exact hacc q hq1

theorem cleanParts_true_wfe (parts : List (List Char))
    (h : ∀ c ∈ parts, '/' ∉ c) :
    ∀ p ∈ cleanParts true parts, wfe p ∧ '/' ∉ p := by
  intro p hp
  unfold cleanParts at hp
  rw [List.mem_reverse] at hp
  exact foldl_cleanStep_true_pred (fun c => '/' ∉ c) parts
    (fun c hc => Or.inr (Or.inr (Or.inr (h c hc)))) [] (by simp) p hp

/-- The unrooted clean stack always splits into well-formed entries atop
a block of `..` entries. -/
theorem foldl_cleanStep_false_shape (parts : List (List Char))
    (hparts : ∀ c ∈ parts, '/' ∉ c) :
    ∀ acc, (∃ a b, acc = a ++ b ∧ (∀ p ∈ a, wfe p ∧ '/' ∉ p) ∧
      (∀ p ∈ b, p = ['.', '.'])) →
    ∃ a b, List.foldl (cleanStep false) acc parts = a ++ b ∧
      (∀ p ∈ a, wfe p ∧ '/' ∉ p) ∧ (∀ p ∈ b, p = ['.', '.']) := by
  induction parts with
  | nil => intro acc hacc; simpa using hacc
  | cons c rest ih =>
    intro acc hacc
    rw [List.foldl_cons]
    have hrest : ∀ x ∈ rest, '/' ∉ x := fun x hx => hparts x (List.mem_cons_of_mem c hx)
    refine ih hrest (cleanStep false acc c) ?_
    obtain ⟨a, b, hab, ha, hb⟩ := hacc
    by_cases h1 : c = [] ∨ c = ['.']
    · exact ⟨a, b, by simp [cleanStep, h1, hab], ha, hb⟩
    · by_cases h2 : c = ['.', '.']
      · subst h2
        cases hacs : acc with
        | nil =>
          refine ⟨[], [['.', '.']], ?_, by simp, by simp⟩
          simp [cleanStep, h1, hacs]
        | cons d rest2 =>
          cases hA : a with
          | nil =>
            have hball : ∀ p ∈ acc, p = ['.', '.'] := by
              intro p hp
              exact hb p (by rw [hA] at hab; simpa [hab] using hp)
            have hd : d = ['.', '.'] := hball d (hacs ▸ List.mem_cons_self d rest2)
            refine ⟨[], ['.', '.'] :: acc, ?_, by simp, ?_⟩
            · simp only [cleanStep, h1, if_false, if_pos rfl, hacs, hd]
              simp [hacs, hd]
            · intro p hp
              rcases List.mem_cons.mp hp with hp1 | hp1
              · exact hp1
              · exact hball p hp1
          | cons a0 atl =>
            have hd : d = a0 := by
              rw [hA] at hab
              rw [hacs] at hab
              exact (List.cons.injEq .. ▸ hab).1
            have ha0 : wfe a0 ∧ '/' ∉ a0 := ha a0 (hA ▸ List.mem_cons_self a0 atl)
            have hdne : d ≠ ['.', '.'] := hd ▸ ha0.1.2.2
            refine ⟨atl, b, ?_, ?_, hb⟩
            · simp only [cleanStep, h1, if_false, if_pos rfl, hacs, hdne]
              rw [hacs] at hab
              rw [hA] at hab
              simpa using (List.cons.injEq .. ▸ hab).2
            · intro p hp
              exact ha p (hA ▸ List.mem_cons_of_mem a0 hp)
      · have hwfe : wfe c := by
          push_neg at h1
          exact ⟨h1.1, h1.2, h2⟩
        refine ⟨c :: a, b, ?_, ?_, hb⟩
        · rw [cleanStep_push false acc c hwfe, hab]; rfl
        · intro p hp
          rcases List.mem_cons.mp hp with hp1 | hp1
          · subst hp1; exact ⟨hwfe, hparts p (List.mem_cons_self _ _)⟩
          · exact ha p hp1

theorem cleanParts_false_shape (parts : List (List Char))
    (h : ∀ c ∈ parts, '/' ∉ c) :
    ∃ k norm, cleanParts false parts = List.replicate k ['.', '.'] ++ norm ∧
      ∀ p ∈ norm, wfe p ∧ '/' ∉ p := by
  obtain ⟨a, b, hab, ha, hb⟩ :=
    foldl_cleanStep_false_shape parts h [] ⟨[], [], rfl, by simp, by simp⟩
  refine ⟨b.length, a.reverse, ?_, ?_⟩
  · unfold cleanParts
    rw [hab, List.reverse_append, List.eq_replicate_of_mem
      (fun p hp => hb p (List.mem_reverse.mp hp))]
    simp
  · intro p hp
    exact ha p (List.mem_reverse.mp hp)

theorem foldl_cleanStep_dd (k : Nat) :
    ∀ acc, (∀ p ∈ acc, p = ['.', '.']) →
    List.foldl (cleanStep false) acc (List.replicate k ['.', '.']) =
      List.replicate k ['.', '.'] ++ acc := by
  induction k with
  | zero => intro acc _; simp
  | succ n ih =>
    intro acc hacc
    rw [List.replicate_succ, List.foldl_cons]
    have hstep : cleanStep false acc ['.', '.'] = ['.', '.'] :: acc := by
      cases hacs : acc with
      | nil => simp [cleanStep]
      | cons d rest =>
        have hd : d = ['.', '.'] := hacc d (hacs ▸ List.mem_cons_self d rest)
        simp [cleanStep, hd]
    rw [hstep, ih (['.', '.'] :: acc) ?_]
    · have h2 : List.replicate n (['.', '.'] : List Char) ++ ['.', '.'] :: acc =
          (List.replicate n ['.', '.'] ++ [['.', '.']]) ++ acc := by simp
      rw [h2, ← List.replicate_succ', List.replicate_succ]
    · intro p hp
      rcases List.mem_cons.mp hp with hp1 | hp1
      · exact hp1
      · exact hacc p hp1

theorem cleanParts_fix_unrooted (k : Nat) (norm : List (List Char))
    (hnorm : ∀ p ∈ norm, wfe p) :
    cleanParts false (List.replicate k ['.', '.'] ++ norm) =
      List.replicate k ['.', '.'] ++ norm := by
  unfold cleanParts
  rw [List.foldl_append, foldl_cleanStep_dd k [] (by simp),
    List.append_nil, foldl_cleanStep_push false norm hnorm]
  simp

theorem splitSlash_joinSlash (parts : List (List Char))
    (h : ∀ p ∈ parts, '/' ∉ p) (hne : parts ≠ []) :
    splitSlash (joinSlash parts) = parts := by
  induction parts with
  | nil => exact absurd rfl hne
  | cons p rest ih =>
    cases rest with
    | nil =>
      exact splitSlash_of_no_slash p (h p (List.mem_singleton.mpr rfl))
    | cons q rest2 =>
      rw [show joinSlash (p :: q :: rest2) = p ++ '/' :: joinSlash (q :: rest2) from rfl,
        splitSlash_append,
        splitSlash_of_no_slash p (h p (List.mem_cons_self _ _)),
        ih (fun x hx => h x (List.mem_cons_of_mem p hx)) (by simp)]
      rfl

theorem toList_mk (l : List Char) : String.toList ⟨l⟩ = l := rfl

theorem joinSlash_head (p : List Char) (rest : List (List Char)) (hp : p ≠ []) :
    (joinSlash (p :: rest)).head? = p.head? := by
  cases rest with
  | nil => rfl
  | cons q rest2 =>
    rw [show joinSlash (p :: q :: rest2) = p ++ '/' :: joinSlash (q :: rest2) from rfl]
    cases p with
    | nil => exact absurd rfl hp
    | cons c cs => rfl

theorem isRooted_slash (l : List Char) : isRooted ('/' :: l) = true := rfl

theorem isRooted_cons_ne (c : Char) (l : List Char) (h : c ≠ '/') :
    isRooted (c :: l) = false := by
  cases l <;> simp [isRooted, h]

theorem goClean_idem (s : String) : goClean (goClean s) = goClean s := by
  simp only [goClean]
  cases hr : isRooted s.toList with
  | true =>
    simp only [eq_self_iff_true, if_true]
    have hwfe := cleanParts_true_wfe (splitSlash s.toList)
      (splitSlash_no_slash s.toList)
    cases hps : cleanParts true (splitSlash s.toList) with
    | nil => decide
    | cons p0 prest =>
      have hwfe2 : ∀ q ∈ (p0 :: prest), wfe q ∧ '/' ∉ q := by
        rw [← hps]; exact hwfe
      have hpn : (p0 :: prest) ≠ [] := by simp
      have hnosl : ∀ q ∈ (p0 :: prest), '/' ∉ q := fun q hq => (hwfe2 q hq).2
      have hrx : isRooted (String.toList ⟨'/' :: joinSlash (p0 :: prest)⟩) = true := by
        rw [toList_mk]; rfl
      rw [hrx]
      simp only [eq_self_iff_true, if_true, toList_mk]
      have h2 : splitSlash ('/' :: joinSlash (p0 :: prest)) =
          [] :: (p0 :: prest) := by
        have h3 : splitSlash (joinSlash (p0 :: prest)) = p0 :: prest :=
          splitSlash_joinSlash _ hnosl hpn
        simp only [splitSlash]
        rw [h3]
        simp
      rw [h2]
      have h4 : cleanParts true ([] :: p0 :: prest) = p0 :: prest := by
        unfold cleanParts
        rw [List.foldl_cons, show cleanStep true [] [] = [] by simp [cleanStep]]
        have h5 := cleanParts_fix_rooted (p0 :: prest) (fun q hq => (hwfe2 q hq).1)
        unfold cleanParts at h5
        rw [h5]
      rw [h4]
  | false =>
    simp only [Bool.false_eq_true, if_false]
    obtain ⟨k, norm, hshape, hnorm⟩ :=
      cleanParts_false_shape (splitSlash s.toList) (splitSlash_no_slash s.toList)
    rw [hshape]
    by_cases hkn : List.replicate k ['.', '.'] ++ norm = []
    · rw [if_pos hkn]
      decide
    · rw [if_neg hkn]
      have hall : ∀ p ∈ List.replicate k ['.', '.'] ++ norm, p ≠ [] ∧ '/' ∉ p := by
        intro p hp
        rcases List.mem_append.mp hp with hp1 | hp1
        · have hp2 := List.eq_of_mem_replicate hp1
          subst hp2
          exact ⟨by simp, by simp⟩
        · exact ⟨(hnorm p hp1).1.1, (hnorm p hp1).2⟩
      have hhead : isRooted (String.toList ⟨joinSlash (List.replicate k ['.', '.'] ++ norm)⟩) = false := by
        rw [toList_mk]
        cases hc : List.replicate k ['.', '.'] ++ norm with
        | nil => exact absurd hc hkn
        | cons p0 prest =>
          have hp0 := hall p0 (hc ▸ List.mem_cons_self p0 prest)
          cases hp0' : p0 with
          | nil => exact absurd hp0' hp0.1
          | cons c0 cs0 =>
            have hc0 : c0 ≠ '/' := by
              intro hcc
              exact hp0.2 (hp0' ▸ hcc ▸ List.mem_cons_self c0 cs0)
            have hj : joinSlash ((c0 :: cs0) :: prest) =
                c0 :: (match prest with
                  | [] => cs0
                  | _ :: _ => cs0 ++ '/' :: joinSlash prest) := by
              cases prest <;> rfl
            rw [hj]
            cases prest <;> exact isRooted_cons_ne c0 _ hc0
      rw [hhead]
      simp only [Bool.false_eq_true, if_false, toList_mk]
      rw [splitSlash_joinSlash _ (fun p hp => (hall p hp).2) hkn,
        cleanParts_fix_unrooted k norm (fun p hp => (hnorm p hp).1)]
      rw [if_neg hkn]

theorem goClean_goDir (s : String) : goClean (goDir s) = goDir s := by
  unfold goDir
  exact goClean_idem _

theorem lookupKey_eraseKey_ne {α : Type} (l : List (String × α)) (k q : String)
    (h : q ≠ k) : lookupKey (eraseKey l k) q = lookupKey l q := by
  induction l with
  | nil => rfl
  | cons e rest ih =>
    obtain ⟨k', v'⟩ := e
    by_cases hk : k' = k
    · subst hk
      have hq : ¬ (k' = q) := fun hh => h hh.symm
      simp [eraseKey, lookupKey, hq]
    · by_cases hq : k' = q
      · simp [eraseKey, hk, lookupKey, hq, h]
      · simp [eraseKey, hk, lookupKey, hq, ih]

/-! ## `AddFolder` / `CreateFolder` lemmas (C6, C7) -/

theorem addFolderAux_succ (fuel : Nat) (fs : MemoryFileSystem) (p0 : String) :
    addFolderAux (fuel + 1) fs p0 =
      (let path := goClean p0
       let fs1 := if (lookupKey fs.files path).isSome then fs
         else ⟨insertKey fs.files path ⟨goBase path, path, true, 0, 0, "", ""⟩⟩
       let dir := goDir path
       if dir ≠ "." ∧ dir ≠ "/" then
         if (lookupKey fs1.files dir).isSome then fs1 else addFolderAux fuel fs1 dir
       else fs1) := rfl

theorem addFolderAux_lookup_mono : ∀ (fuel : Nat) (fs : MemoryFileSystem)
    (p k : String) (v : MemFile), lookupKey fs.files k = some v →
    lookupKey (addFolderAux fuel fs p).files k = some v := by
  intro fuel
  induction fuel with
  | zero => intro fs p k v h; simpa [addFolderAux] using h
  | succ n ih =>
    intro fs p k v h
    simp only [addFolderAux_succ]
    set fs1 : MemoryFileSystem :=
      if (lookupKey fs.files (goClean p)).isSome then fs
      else ⟨insertKey fs.files (goClean p)
        ⟨goBase (goClean p), goClean p, true, 0, 0, "", ""⟩⟩ with hfs1def
    have h1 : lookupKey fs1.files k = some v := by
      rw [hfs1def]
      by_cases hex : (lookupKey fs.files (goClean p)).isSome
      · rw [if_pos hex]; exact h
      · rw [if_neg hex]
        have hkp : k ≠ goClean p := by
          intro hkk
          rw [hkk] at h
          rw [h] at hex
          exact hex rfl
        simpa [lookupKey_insertKey_ne _ _ _ _ hkp] using h
    split
    · split
      · exact h1
      · exact ih _ _ _ _ h1
    · exact h1

theorem addFolderAux_present (m : Nat) (fs : MemoryFileSystem) (q : String)
    (hcl : goClean q = q) :
    (lookupKey (addFolderAux (m + 1) fs q).files q).isSome := by
  simp only [addFolderAux_succ, hcl]
  set fs1 : MemoryFileSystem :=
    if (lookupKey fs.files q).isSome then fs
    else ⟨insertKey fs.files q ⟨goBase q, q, true, 0, 0, "", ""⟩⟩ with hfs1def
  have h1 : ∃ v, lookupKey fs1.files q = some v := by
    rw [hfs1def]
    by_cases hex : (lookupKey fs.files q).isSome
    · rw [if_pos hex]
      exact Option.isSome_iff_exists.mp hex
    · rw [if_neg hex]
      exact ⟨_, lookupKey_insertKey_self _ _ _⟩
  obtain ⟨v, hv⟩ := h1
  split
  · split
    · simp [hv]
    · simp [addFolderAux_lookup_mono m _ _ _ _ hv]
  · simp [hv]

theorem addFolderAux_insert (n : Nat) (fs : MemoryFileSystem) (p : String)
    (hcl : goClean p = p) (habs : lookupKey fs.files p = none) :
    ((lookupKey (addFolderAux (n + 1 + 1) fs p).files p).map (fun f => f.isDir) = some true) ∧
    (goDir p ≠ "." → goDir p ≠ "/" →
      (lookupKey (addFolderAux (n + 1 + 1) fs p).files (goDir p)).isSome) := by
  have hex : (lookupKey fs.files p).isSome = false := by simp [habs]
  rw [addFolderAux_succ]
  simp only [hcl, hex, Bool.false_eq_true, if_false]
  have hself : lookupKey
      (insertKey fs.files p ⟨goBase p, p, true, 0, 0, "", ""⟩) p =
      some ⟨goBase p, p, true, 0, 0, "", ""⟩ := lookupKey_insertKey_self _ _ _
  split
  · rename_i hguard
    split
    · rename_i hpar
      constructor
      · simp [hself]
      · intro _ _; exact hpar
    · rename_i hpar
      constructor
      · simp [addFolderAux_lookup_mono (n + 1) _ _ _ _ hself]
      · intro _ _
        exact addFolderAux_present n ⟨insertKey fs.files p ⟨goBase p, p, true, 0, 0, "", ""⟩⟩
          (goDir p) (goClean_goDir p)
  · rename_i hguard
    constructor
    · simp [hself]
    · intro h1 h2
      exact absurd ⟨h1, h2⟩ hguard

theorem CreateFolder_present (fs : MemoryFileSystem) (p : String) :
    (lookupKey (fs.CreateFolder p).files (goClean p)).isSome := by
  by_cases h : (lookupKey fs.files (goClean p)).isSome
  · simp [MemoryFileSystem.CreateFolder, h]
  · have h2 : (lookupKey fs.files (goClean p)).isSome = false := by
      simp only [Bool.not_eq_true] at h; exact h
    simp only [MemoryFileSystem.CreateFolder, h2, Bool.false_eq_true, if_false,
      MemoryFileSystem.AddFolder]
    exact addFolderAux_present ((goClean p).length + 1) fs (goClean p) (goClean_idem p)

/-- C6 — `MemoryFileSystem.CreateFolder` semantics: any already-existing
path (directory **or** file) is accepted unchanged with a nil error;
otherwise the directory node is created and the missing parent is
auto-created alongside it. -/
theorem C6_create_directory (fs : MemoryFileSystem) (p : String) :
    ((lookupKey fs.files (goClean p)).isSome → fs.CreateFolder p = fs) ∧
    (lookupKey fs.files (goClean p) = none →
      (lookupKey (fs.CreateFolder p).files (goClean p)).map (fun f => f.isDir) = some true ∧
      (goDir (goClean p) ≠ "." → goDir (goClean p) ≠ "/" →
        (lookupKey (fs.CreateFolder p).files (goDir (goClean p))).isSome)) := by
  constructor
  · intro h
    simp [MemoryFileSystem.CreateFolder, h]
  · intro h
    have h2 : (lookupKey fs.files (goClean p)).isSome = false := by simp [h]
    simp only [MemoryFileSystem.CreateFolder, h2, Bool.false_eq_true, if_false,
      MemoryFileSystem.AddFolder]
    exact addFolderAux_insert ((goClean p).length) fs (goClean p) (goClean_idem p) h

/-- A file at `/f` (not a directory). -/
def fsF : MemoryFileSystem := ⟨[("/f", ⟨"f", "/f", false, 1, 0, "z", "text/plain"⟩)]⟩

/-- C6 (counterexample) — the destination exists as a **file**, yet both
`MemoryFileSystem.CreateFolder` and the engine's create-directory step
succeed, where the claim requires failure. -/
theorem C6_counterexample :
    (lookupKey fsF.files "/f").map (fun f => f.isDir) = some false ∧
    fsF.CreateFolder "/f" = fsF ∧
    executeMove fsF ⟨"c1", "", "/f", "r", "CREATE_FOLDER", 0⟩ = .ok fsF := by
  decide

theorem C6_create_directory_witness :
    fsF.CreateFolder "/f" = fsF ∧
    (lookupKey (fsEmpty.CreateFolder "/a/b").files (goClean "/a/b")).map
      (fun f => f.isDir) = some true ∧
    (lookupKey (fsEmpty.CreateFolder "/a/b").files (goDir (goClean "/a/b"))).isSome :=
  ⟨(C6_create_directory fsF "/f").1 (by decide),
   ((C6_create_directory fsEmpty "/a/b").2 (by decide)).1,
   ((C6_create_directory fsEmpty "/a/b").2 (by decide)).2 (by decide) (by decide)⟩

/-! ## `Move` creates missing destination parents (C7) -/

theorem moveDescendants_preserve (src dst : String) :
    ∀ (ps : List String) (files : List (String × MemFile)) (k : String),
      (∀ p ∈ ps, p ≠ k) → (lookupKey files k).isSome →
      (lookupKey (moveDescendants src dst ps files) k).isSome := by
  intro ps
  induction ps with
  | nil => intro files k _ h; simpa [moveDescendants] using h
  | cons p rest ih =>
    intro files k hne h
    rw [moveDescendants]
    cases hl : lookupKey files p with
    | none => exact ih files k (fun q hq => hne q (List.mem_cons_of_mem p hq)) h
    | some f =>
      apply ih _ k (fun q hq => hne q (List.mem_cons_of_mem p hq))
      have hkp : k ≠ p := fun hh => hne p (List.mem_cons_self p rest) hh.symm
      rw [lookupKey_eraseKey_ne _ _ _ hkp]
      exact isSome_lookupKey_insertKey _ _ _ _ h

/-- C7 (amended) — `MemoryFileSystem.Move` auto-creates a missing
destination parent: after every successful move whose destination parent
is a proper directory distinct from (and not inside) the source, the
parent exists. -/
theorem C7_move_creates_parent (fs : MemoryFileSystem)
    (source destination : String)
    (hdot : goDir (goClean destination) ≠ ".")
    (hroot : goDir (goClean destination) ≠ "/")
    (hsrc : goClean source ≠ goDir (goClean destination))
    (hsub : goHasPrefix (goDir (goClean destination)) (goClean source ++ "/") = false)
    (hok : (fs.Move source destination).toOption.isSome) :
    (fs.Move source destination).toOption.map
      (fun f => (lookupKey f.files (goDir (goClean destination))).isSome) = some true := by
  simp only [MemoryFileSystem.Move] at hok ⊢
  cases hl : lookupKey fs.files (goClean source) with
  | none =>
    rw [hl] at hok
    simp [Except.toOption] at hok
  | some file =>
    rw [hl] at hok
    by_cases hd : (lookupKey fs.files (goClean destination)).isSome
    · simp [hd, Except.toOption] at hok
    · have hd2 : (lookupKey fs.files (goClean destination)).isSome = false := by
        simp only [Bool.not_eq_true] at hd; exact hd
      simp only [hd2, Bool.false_eq_true, if_false]
      have hguard : goDir (goClean destination) ≠ "." ∧ goDir (goClean destination) ≠ "/" :=
        ⟨hdot, hroot⟩
      rw [if_pos hguard]
      have h1 : (lookupKey (fs.CreateFolder (goDir (goClean destination))).files
          (goDir (goClean destination))).isSome := by
        have h0 := CreateFolder_present fs (goDir (goClean destination))
        rwa [goClean_goDir] at h0
      have h2 : (lookupKey (eraseKey (insertKey
          (fs.CreateFolder (goDir (goClean destination))).files (goClean destination)
          ⟨goBase (goClean destination), goClean destination, file.isDir, file.size, 0,
            file.content, file.mimeType⟩) (goClean source))
          (goDir (goClean destination))).isSome := by
        rw [lookupKey_eraseKey_ne _ _ _ (fun hh => hsrc hh.symm)]
        exact isSome_lookupKey_insertKey _ _ _ _ h1
      by_cases hfd : file.isDir = true
      · rw [hfd] at h2
        simp only [hfd, if_true, Except.toOption, Option.map_some',
          Option.some.injEq]
        apply moveDescendants_preserve _ _ _ _ _ ?_ h2
        intro q hq
        intro hqd
        rw [List.mem_filter] at hq
        rw [hqd] at hq
        rw [hq.2] at hsub
        exact absurd hsub (by simp)
      · simp only [Bool.not_eq_true] at hfd
        rw [hfd] at h2
        simp only [hfd, Bool.false_eq_true, if_false, Except.toOption,
          Option.map_some', Option.some.injEq]
        exact h2

/-- A file at `/a.txt`, no directory `/D`. -/
def fsC : MemoryFileSystem := ⟨[("/a.txt", ⟨"a.txt", "/a.txt", false, 1, 0, "x", "text/plain"⟩)]⟩

/-- C7 (counterexample) — `/D` does not exist, yet
`Move("/a.txt", "/D/a.txt")` succeeds and creates `/D`: `Move` does
auto-create the missing destination parent, contrary to the claim. -/
theorem C7_counterexample :
    fsC.Exists "/D" = false ∧
    (fsC.Move "/a.txt" "/D/a.txt").toOption.map (fun f => f.Exists "/D") = some true := by
  decide

theorem C7_move_creates_parent_witness :
    (fsC.Move "/a.txt" "/D/a.txt").toOption.map
      (fun f => (lookupKey f.files (goDir (goClean "/D/a.txt"))).isSome) = some true :=
  C7_move_creates_parent fsC "/a.txt" "/D/a.txt" (by decide) (by decide) (by decide)
    (by decide) (by decide)

theorem C3_fail_fast_conflict_witness :
    (ExecutePlan "P3" true fsEmpty stP3).err = none ∧
      (ExecutePlan "P3" true fsEmpty stP3).log.map (fun l => l.Status) = some "PARTIAL" ∧
      (ExecutePlan "P3" true fsEmpty stP3).log.map (fun l => l.Failed) = some [] ∧
      (ExecutePlan "P3" true fsEmpty stP3).log.map (fun l => l.Completed) = some [] ∧
      (ExecutePlan "P3" true fsEmpty stP3).log.map (fun l => l.Skipped.map (fun sk => sk.MoveID)) =
        some [mvP3.ID] :=
  C3_fail_fast_conflict fsEmpty stP3 "P3" planP3 mvP3 (by decide) rfl rfl (by decide)

/-! ## WAL invariants: every non-marker record has its completion marker -/

/-- A record payload that decodes as a `Move`. -/
def OpData.isMove : OpData → Bool
  | .move _ => true
  | _ => false

/-- Every non-completion-marker record in the operations map has a
record at its completion-marker key.  This is exactly emptiness of
`GetPendingOperations`. -/
def markedInvOps (ops : List (String × Operation)) : Prop :=
  ∀ e ∈ ops, e.2.Type' ≠ "completion_marker" →
    (lookupKey ops (e.2.ID ++ "_completed")).isSome

theorem pending_empty_iff (st : MemoryOperationStore) :
    st.GetPendingOperations = [] ↔ markedInvOps st.operations := by
  unfold MemoryOperationStore.GetPendingOperations markedInvOps
  rw [sortByTs_eq_nil, List.filter_eq_nil_iff]
  constructor
  · intro h e he hm
    have h2 := h e.2 (List.mem_map_of_mem Prod.snd he)
    simp only [decide_eq_true_eq, not_and] at h2
    have h3 := h2 hm
    simp only [Option.isNone_iff_eq_none] at h3
    cases hl : lookupKey st.operations (e.2.ID ++ "_completed") with
    | none => exact absurd hl h3
    | some v => simp
  · intro h op hop
    rw [List.mem_map] at hop
    obtain ⟨e, he, heq⟩ := hop
    subst heq
    simp only [decide_eq_true_eq, not_and]
    intro hty
    have h2 := h e he hty
    simp only [Option.isNone_iff_eq_none]
    intro h3
    rw [h3] at h2
    simp at h2

theorem mem_withMarked (ops : List (String × Operation)) (id : String)
    (op : Operation) (e : String × Operation) (h : e ∈ withMarked ops id op) :
    e ∈ ops ∨ e = (id, op) ∨ e.2.Type' = "completion_marker" := by
  unfold withMarked at h
  rcases mem_insertKey _ _ _ _ h with h1 | h1
  · rcases mem_insertKey _ _ _ _ h1 with h2 | h2
    · exact Or.inl h2
    · exact Or.inr (Or.inl h2)
  · right; right
    rw [h1]

theorem withMarked_lookup_mono (ops : List (String × Operation)) (id : String)
    (op : Operation) (q : String) (h : (lookupKey ops q).isSome) :
    (lookupKey (withMarked ops id op) q).isSome :=
  isSome_lookupKey_insertKey _ _ _ _ (isSome_lookupKey_insertKey _ _ _ _ h)

theorem withMarked_marker_present (ops : List (String × Operation)) (id : String)
    (op : Operation) : (lookupKey (withMarked ops id op) (id ++ "_completed")).isSome := by
  unfold withMarked
  rw [lookupKey_insertKey_self]
  rfl

theorem withMarked_record_present (ops : List (String × Operation)) (id : String)
    (op : Operation) : (lookupKey (withMarked ops id op) id).isSome := by
  unfold withMarked
  have hne : id ≠ id ++ "_completed" := fun h => append_completed_ne id h.symm
  rw [lookupKey_insertKey_ne _ _ _ _ hne, lookupKey_insertKey_self]
  rfl

theorem withMarked_markedInv (ops : List (String × Operation)) (id : String)
    (op : Operation) (hid : op.ID = id) (hinv : markedInvOps ops) :
    markedInvOps (withMarked ops id op) := by
  intro e he hm
  rcases mem_withMarked ops id op e he with h1 | h1 | h1
  · exact withMarked_lookup_mono _ _ _ _ (hinv e h1 hm)
  · rw [h1]
    simp only [hid]
    exact withMarked_marker_present ops id op
  · exact absurd h1 hm

theorem saveLog_ops (st : MemoryOperationStore) (l : ExecutionLog) :
    (st.SaveExecutionLog l).operations = st.operations := rfl

theorem saveLog_pending (st : MemoryOperationStore) (l : ExecutionLog) :
    (st.SaveExecutionLog l).GetPendingOperations = st.GetPendingOperations := rfl

/-- Through a completed loop run: keys only accumulate, the
all-records-marked invariant is preserved, and every processed step has
both its WAL record and its completion marker in the final store. -/
theorem executeLoop_done_props (pid : String) (ff : Bool) (moves : List Move) :
    ∀ fs st log fs2 st2 log2,
      executeLoop pid ff moves fs st log = .done fs2 st2 log2 →
      (∀ q, (lookupKey st.operations q).isSome →
        (lookupKey st2.operations q).isSome) ∧
      (markedInvOps st.operations → markedInvOps st2.operations) ∧
      (∀ mv ∈ moves,
        (lookupKey st2.operations (pid ++ "-" ++ mv.ID)).isSome ∧
        (lookupKey st2.operations (pid ++ "-" ++ mv.ID ++ "_completed")).isSome) := by
  induction moves with
  | nil =>
    intro fs st log fs2 st2 log2 h
    simp only [executeLoop, LoopOut.done.injEq] at h
    obtain ⟨_, h2, _⟩ := h
    subst h2
    exact ⟨fun q hq => hq, fun hi => hi, by simp⟩
  | cons mv rest ih =>
    intro fs st log fs2 st2 log2 h
    rw [executeLoop_cons] at h
    have hstep : ∀ (fsx : MemoryFileSystem) (logx : ExecutionLog),
        executeLoop pid ff rest fsx
          ((afterMarkOps pid mv st).SaveExecutionLog logx) logx = .done fs2 st2 log2 →
        (∀ q, (lookupKey st.operations q).isSome →
          (lookupKey st2.operations q).isSome) ∧
        (markedInvOps st.operations → markedInvOps st2.operations) ∧
        (∀ mv' ∈ mv :: rest,
          (lookupKey st2.operations (pid ++ "-" ++ mv'.ID)).isSome ∧
          (lookupKey st2.operations (pid ++ "-" ++ mv'.ID ++ "_completed")).isSome) := by
      intro fsx logx hx
      obtain ⟨hmono, hinv, hrec⟩ := ih fsx _ logx fs2 st2 log2 hx
      rw [saveLog_ops] at hmono hinv
      have hops : (afterMarkOps pid mv st).operations =
          withMarked st.operations (pid ++ "-" ++ mv.ID)
            ⟨pid ++ "-" ++ mv.ID, "move", .move mv, 0⟩ := rfl
      rw [hops] at hmono hinv
      refine ⟨?_, ?_, ?_⟩
      · intro q hq
        exact hmono q (withMarked_lookup_mono _ _ _ _ hq)
      · intro hi
        exact hinv (withMarked_markedInv _ _ _ rfl hi)
      · intro mv' hmv'
        rcases List.mem_cons.mp hmv' with h1 | h1
        · subst h1
          exact ⟨hmono _ (withMarked_record_present _ _ _),
            hmono _ (withMarked_marker_present _ _ _)⟩
        · exact hrec mv' h1
    cases hm : executeMove fs mv with
    | error e =>
      rw [hm] at h
      by_cases hc : isConflictError e = true
      · simp only [hc, if_true] at h
        exact hstep _ _ h
      · rw [Bool.not_eq_true] at hc
        simp only [hc, Bool.false_eq_true, if_false] at h
        cases hff : ff with
        | true =>
          rw [hff] at h
          simp only [if_true] at h
          simp at h
        | false =>
          rw [hff] at h
          simp only [Bool.false_eq_true, if_false] at h
          rw [← hff] at h
          exact hstep _ _ h
    | ok fs1 =>
      rw [hm] at h
      exact hstep _ _ h

/-- C2 — WAL sandwich: when `ExecutePlan` terminates normally (nil
error) on a store with no pre-existing pending records, every step of
the plan has both its WAL record and its completion marker in the final
store, and `GetPendingOperations` returns the empty list. -/
theorem C2_wal_sandwich (planID : String) (ff : Bool) (fs : MemoryFileSystem)
    (st : MemoryOperationStore) (plan : ReorganizationPlan)
    (hplan : st.GetPlan planID = .ok plan)
    (hquiet : st.GetPendingOperations = [])
    (hok : (ExecutePlan planID ff fs st).err = none) :
    (ExecutePlan planID ff fs st).store.GetPendingOperations = [] ∧
      (plan.Moves.all fun mv =>
        (lookupKey (ExecutePlan planID ff fs st).store.operations
          (planID ++ "-" ++ mv.ID)).isSome &&
        (lookupKey (ExecutePlan planID ff fs st).store.operations
          (planID ++ "-" ++ mv.ID ++ "_completed")).isSome) = true := by
  cases hl : executeLoop planID ff plan.Moves fs
      (st.SaveExecutionLog ⟨planID, 0, "IN_PROGRESS", [], [], []⟩)
      ⟨planID, 0, "IN_PROGRESS", [], [], []⟩ with
  | early r =>
    rw [ExecutePlan_early planID ff fs st plan r hplan hl] at hok
    have h2 := executeLoop_early_err planID ff plan.Moves _ _ _ r hl
    rw [hok] at h2
    simp at h2
  | done fs2 st2 log =>
    rw [ExecutePlan_done planID ff fs st plan fs2 st2 log hplan hl]
    obtain ⟨hmono, hinv, hrec⟩ := executeLoop_done_props planID ff plan.Moves
      _ _ _ fs2 st2 log hl
    rw [saveLog_ops] at hmono hinv
    constructor
    · rw [saveLog_pending, pending_empty_iff]
      exact hinv ((pending_empty_iff st).mp hquiet)
    · rw [List.all_eq_true]
      intro mv hmv
      rw [Bool.and_eq_true]
      exact ⟨(hrec mv hmv).1, (hrec mv hmv).2⟩

/-! ## Resume: completion markers for decodable "move" records (C4) -/

theorem markComplete_or_ops_mono (st : MemoryOperationStore) (id q : String)
    (h : (lookupKey st.operations q).isSome) :
    (lookupKey (match st.MarkOperationComplete id with
      | .ok s => s
      | .error _ => st).operations q).isSome := by
  unfold MemoryOperationStore.MarkOperationComplete
  by_cases hex : (lookupKey st.operations id).isNone
  · simp only [hex, if_true]
    exact h
  · simp only [hex, Bool.false_eq_true, if_false]
    exact isSome_lookupKey_insertKey _ _ _ _ h

theorem markComplete_or_new_entries (st : MemoryOperationStore) (id : String)
    (e : String × Operation)
    (h : e ∈ (match st.MarkOperationComplete id with
      | .ok s => s
      | .error _ => st).operations) :
    e ∈ st.operations ∨ e.2.Type' = "completion_marker" := by
  revert h
  unfold MemoryOperationStore.MarkOperationComplete
  by_cases hex : (lookupKey st.operations id).isNone
  · simp only [hex, if_true]
    exact Or.inl
  · simp only [hex, Bool.false_eq_true, if_false]
    intro h
    rcases mem_insertKey _ _ _ _ h with h1 | h1
    · exact Or.inl h1
    · right; rw [h1]

theorem markComplete_marks (st : MemoryOperationStore) (id : String)
    (h : (lookupKey st.operations id).isSome) :
    (lookupKey (match st.MarkOperationComplete id with
      | .ok s => s
      | .error _ => st).operations (id ++ "_completed")).isSome := by
  unfold MemoryOperationStore.MarkOperationComplete
  have hex : (lookupKey st.operations id).isNone = false := by
    cases hl : lookupKey st.operations id with
    | none => rw [hl] at h; simp at h
    | some v => rfl
  simp only [hex, Bool.false_eq_true, if_false]
  rw [lookupKey_insertKey_self]
  rfl

theorem resumeLoop_ops_mono : ∀ (ops : List Operation) (fs : MemoryFileSystem)
    (st : MemoryOperationStore) (q : String),
    (lookupKey st.operations q).isSome →
    (lookupKey (resumeLoop ops fs st).2.operations q).isSome := by
  intro ops
  induction ops with
  | nil => intro fs st q h; exact h
  | cons op rest ih =>
    intro fs st q h
    rw [resumeLoop]
    by_cases hty : op.Type' = "move"
    · rw [if_pos hty]
      cases hd : op.Data with
      | move mv => exact ih _ _ q (markComplete_or_ops_mono st op.ID q h)
      | corrupt => exact ih _ _ q h
      | nil => exact ih _ _ q h
    · rw [if_neg hty]
      exact ih _ _ q h

theorem resumeLoop_new_entries : ∀ (ops : List Operation) (fs : MemoryFileSystem)
    (st : MemoryOperationStore) (e : String × Operation),
    e ∈ (resumeLoop ops fs st).2.operations →
    e ∈ st.operations ∨ e.2.Type' = "completion_marker" := by
  intro ops
  induction ops with
  | nil => intro fs st e h; exact Or.inl h
  | cons op rest ih =>
    intro fs st e h
    rw [resumeLoop] at h
    by_cases hty : op.Type' = "move"
    · rw [if_pos hty] at h
      cases hd : op.Data with
      | move mv =>
        rw [hd] at h
        rcases ih _ _ e h with h1 | h1
        · exact markComplete_or_new_entries st op.ID e h1
        · exact Or.inr h1
      | corrupt => rw [hd] at h; exact ih _ _ e h
      | nil => rw [hd] at h; exact ih _ _ e h
    · rw [if_neg hty] at h
      exact ih _ _ e h

theorem resumeLoop_marks : ∀ (ops : List Operation) (fs : MemoryFileSystem)
    (st : MemoryOperationStore),
    (∀ op ∈ ops, op.Type' = "move" ∧ op.Data.isMove = true ∧
      (lookupKey st.operations op.ID).isSome) →
    ∀ op ∈ ops,
      (lookupKey (resumeLoop ops fs st).2.operations (op.ID ++ "_completed")).isSome := by
  intro ops
  induction ops with
  | nil => intro fs st _ op hop; simp at hop
  | cons op0 rest ih =>
    intro fs st hall op hop
    obtain ⟨hty0, hmv0, hpres0⟩ := hall op0 (List.mem_cons_self _ _)
    rw [resumeLoop, if_pos hty0]
    cases hd : op0.Data with
    | move mv =>
      rcases List.mem_cons.mp hop with h1 | h1
      · subst h1
        exact resumeLoop_ops_mono rest _ _ _ (markComplete_marks st op.ID hpres0)
      · refine ih _ _ ?_ op h1
        intro op' hop'
        obtain ⟨ha, hb, hc⟩ := hall op' (List.mem_cons_of_mem _ hop')
        exact ⟨ha, hb, markComplete_or_ops_mono st op0.ID op'.ID hc⟩
    | corrupt => rw [hd] at hmv0; simp [OpData.isMove] at hmv0
    | nil => rw [hd] at hmv0; simp [OpData.isMove] at hmv0

/-- The pending list consists of values of the operations map. -/
theorem pending_sub (st : MemoryOperationStore) (op : Operation)
    (h : op ∈ st.GetPendingOperations) : ∃ k, (k, op) ∈ st.operations := by
  unfold MemoryOperationStore.GetPendingOperations at h
  rw [mem_sortByTs, List.mem_filter] at h
  obtain ⟨h1, _⟩ := h
  rw [List.mem_map] at h1
  obtain ⟨e, he, heq⟩ := h1
  exact ⟨e.1, by rw [← heq]; exact he⟩

/-- A record whose marker key is absent and whose type is not
`completion_marker` is in the pending list. -/
theorem mem_pending (st : MemoryOperationStore) (e : String × Operation)
    (he : e ∈ st.operations) (hm : e.2.Type' ≠ "completion_marker")
    (habs : (lookupKey st.operations (e.2.ID ++ "_completed")).isSome = false) :
    e.2 ∈ st.GetPendingOperations := by
  unfold MemoryOperationStore.GetPendingOperations
  rw [mem_sortByTs, List.mem_filter]
  refine ⟨List.mem_map_of_mem Prod.snd he, ?_⟩
  simp only [decide_eq_true_eq]
  refine ⟨hm, ?_⟩
  simp only [Option.isNone_iff_eq_none]
  cases hl : lookupKey st.operations (e.2.ID ++ "_completed") with
  | none => rfl
  | some v => rw [hl] at habs; simp at habs

/-- C4 (amended) — `ResumePendingOperations` leaves the pending list
empty for every store whose records are keyed by their own ids and
whose pending records are all of type `"move"` with decodable payloads;
records of any other type, or with undecodable payloads, are skipped
without a completion marker (see the counterexample). -/
theorem C4_resume_clears_pending (fs : MemoryFileSystem)
    (st : MemoryOperationStore)
    (hkeys : ∀ e ∈ st.operations, e.1 = e.2.ID)
    (hgood : ∀ op ∈ st.GetPendingOperations,
      op.Type' = "move" ∧ op.Data.isMove = true) :
    (ResumePendingOperations fs st).2.GetPendingOperations = [] := by
  rw [pending_empty_iff]
  intro e he hm
  rcases resumeLoop_new_entries _ _ _ e he with h1 | h1
  · by_cases hp : (lookupKey st.operations (e.2.ID ++ "_completed")).isSome
    · exact resumeLoop_ops_mono _ _ _ _ hp
    · have hp2 : (lookupKey st.operations (e.2.ID ++ "_completed")).isSome = false := by
        rw [Bool.not_eq_true] at hp
        exact hp
      have hpend : e.2 ∈ st.GetPendingOperations := mem_pending st e h1 hm hp2
      have hpres : ∀ op ∈ st.GetPendingOperations,
          op.Type' = "move" ∧ op.Data.isMove = true ∧
          (lookupKey st.operations op.ID).isSome := by
        intro op hop
        obtain ⟨k, hk⟩ := pending_sub st op hop
        have hkid : k = op.ID := hkeys (k, op) hk
        refine ⟨(hgood op hop).1, (hgood op hop).2, ?_⟩
        rw [← hkid]
        exact lookupKey_isSome_of_mem _ _ _ hk
      exact resumeLoop_marks st.GetPendingOperations fs st hpres e.2 hpend
  · exact absurd h1 hm

/-- A pending record of type `"FILE_MOVE"` (not `"move"`). -/
def opNonMove : Operation := ⟨"op1", "FILE_MOVE", .move mvP3, 0⟩

def stResumeA : MemoryOperationStore := ⟨[], [("op1", opNonMove)], []⟩

/-- A pending `"move"` record whose payload does not decode. -/
def opCorrupt : Operation := ⟨"op2", "move", .corrupt, 0⟩

def stResumeB : MemoryOperationStore := ⟨[], [("op2", opCorrupt)], []⟩

/-- C4 (counterexample) — a pending record whose type is not `"move"`,
or whose payload does not decode, is still pending after
`ResumePendingOperations` returns: no completion marker is written for
it, so `GetPendingOperations` is not empty for every prior store
state. -/
theorem C4_counterexample :
    stResumeA.GetPendingOperations = [opNonMove] ∧
      (ResumePendingOperations fsEmpty stResumeA).2.GetPendingOperations = [opNonMove] ∧
      stResumeB.GetPendingOperations = [opCorrupt] ∧
      (ResumePendingOperations fsEmpty stResumeB).2.GetPendingOperations = [opCorrupt] := by
  decide

def opGood : Operation := ⟨"P3-s1", "move", .move mvP3, 0⟩

def stResumeC : MemoryOperationStore := ⟨[], [("P3-s1", opGood)], []⟩

theorem C4_resume_clears_pending_witness :
    (ResumePendingOperations fsEmpty stResumeC).2.GetPendingOperations = [] :=
  C4_resume_clears_pending fsEmpty stResumeC (by decide) (by decide)



theorem C2_wal_sandwich_witness :
    (ExecutePlan "P1" false fsP1 stP1).store.GetPendingOperations = [] ∧
      (planP1.Moves.all fun mv =>
        (lookupKey (ExecutePlan "P1" false fsP1 stP1).store.operations
          ("P1" ++ "-" ++ mv.ID)).isSome &&
        (lookupKey (ExecutePlan "P1" false fsP1 stP1).store.operations
          ("P1" ++ "-" ++ mv.ID ++ "_completed")).isSome) = true :=
  C2_wal_sandwich "P1" false fsP1 stP1 planP1 (by decide) (by decide) (by decide)

/-! ## `FileOperationStore` (`local_filesystem.go`, second document)

The on-disk store: one JSON file per record in `plans/`, `operations/`
and `execution_logs/` under the store directory.  File contents are
modelled by their decoded values (`json.MarshalIndent` then
`json.Unmarshal` round-trips); `os.WriteFile` replaces the file at a
path, which `insertKey` models. -/

inductive FileRecord where
  | planRec (p : ReorganizationPlan)
  | logRec (l : ExecutionLog)
  | opRec (o : Operation)
  deriving Repr, DecidableEq

structure FileOperationStore where
  storeDir : String
  files : List (String × FileRecord)
  deriving Repr, DecidableEq

def emptyFileStore (dir : String) : FileOperationStore := ⟨dir, []⟩

/-- `filepath.Join(f.storeDir, "plans", plan.ID+".json")`: the caller's
plan id is used verbatim as the filename stem. -/
def planFilePath (dir id : String) : String :=
  goJoin [dir, "plans", id ++ ".json"]

def execLogFilePath (dir pid : String) : String :=
  goJoin [dir, "execution_logs", pid ++ ".json"]

def FileOperationStore.SavePlan (f : FileOperationStore)
    (plan : ReorganizationPlan) : FileOperationStore :=
  { f with files := insertKey f.files (planFilePath f.storeDir plan.ID) (.planRec plan) }

def FileOperationStore.GetPlan (f : FileOperationStore) (id : String) :
    Except String ReorganizationPlan :=
  match lookupKey f.files (planFilePath f.storeDir id) with
  | none => .error ("plan not found: " ++ id)
  | some (.planRec p) => .ok p
  | some _ => .error "failed to unmarshal plan"

/-- Keyed by `log.PlanID + ".json"` — overwrites the prior log of the
same plan. -/
def FileOperationStore.SaveExecutionLog (f : FileOperationStore)
    (log : ExecutionLog) : FileOperationStore :=
  { f with files := insertKey f.files (execLogFilePath f.storeDir log.PlanID) (.logRec log) }

/-- `ReadDir` of `execution_logs/` (immediate children ending in
`.json`), skipping entries that fail to decode, sorted newest first. -/
def FileOperationStore.GetExecutionHistory (f : FileOperationStore) :
    List ExecutionLog :=
  let logsDir := goJoin [f.storeDir, "execution_logs"]
  ((f.files.filter (fun kv => goDir kv.1 = logsDir ∧ goHasSuffix kv.1 ".json")).filterMap
    (fun kv => match kv.2 with | .logRec l => some l | _ => none)).foldr insertByTsDesc []

/-! ## C10: plan ids are used verbatim as filename stems -/

def evilPlan : ReorganizationPlan := ⟨"../evil", 0, [], ⟨0, 0, 0, "", ""⟩, "escape"⟩

/-- C10 — With plan id `"../evil"`, `SavePlan` writes the record at
`/store/evil.json`, outside the `plans/` namespace directory, and
`GetPlan` with the same id reads it back from that outside location. -/
theorem C10_plan_id_escape :
    planFilePath "/store" "../evil" = "/store/evil.json" ∧
    ¬ withinRoot (goJoin ["/store", "plans"]) (planFilePath "/store" "../evil") ∧
    ((emptyFileStore "/store").SavePlan evilPlan).files =
      [("/store/evil.json", .planRec evilPlan)] ∧
    ((emptyFileStore "/store").SavePlan evilPlan).GetPlan "../evil" = .ok evilPlan := by
  decide

/-! ## C5: overwrite semantics of `save-execution-log` -/

def logL1 : ExecutionLog := ⟨"PX", 1, "COMPLETED", [], [], []⟩

def logL2 : ExecutionLog := ⟨"PX", 2, "FAILED", [], [], []⟩

/-- C5 (counterexample) — the in-memory store's `SaveExecutionLog`
**appends**: after saving `logL1` then `logL2` under the same plan id
the store retains both, and the history query still returns `logL1`. -/
theorem C5_counterexample :
    ((emptyStore.SaveExecutionLog logL1).SaveExecutionLog logL2).execLogs = [logL1, logL2] ∧
    logL1 ∈ ((emptyStore.SaveExecutionLog logL1).SaveExecutionLog logL2).GetExecutionHistory ∧
    logL1 ≠ logL2 := by
  decide

theorem wfe_of_length (p : List Char) (h : 3 ≤ p.length) : wfe p := by
  refine ⟨?_, ?_, ?_⟩ <;> intro he <;> rw [he] at h <;> simp at h

theorem dropWhile_ne_slash (xs ys : List Char) (h : '/' ∉ xs) :
    (xs ++ '/' :: ys).dropWhile (fun c => c ≠ '/') = '/' :: ys := by
  induction xs with
  | nil => simp [List.dropWhile]
  | cons c rest ih =>
    simp only [List.mem_cons, not_or] at h
    have hc : c ≠ '/' := fun hcc => h.1 hcc.symm
    have hd : decide (c ≠ '/') = true := decide_eq_true hc
    simp only [List.cons_append, List.dropWhile_cons, hd, if_true]
    exact ih h.2

theorem dirChars_append (as bs : List Char) (h : '/' ∉ bs) :
    dirChars (as ++ '/' :: bs) = as ++ ['/'] := by
  unfold dirChars
  have h1 : (as ++ '/' :: bs).reverse = bs.reverse ++ '/' :: as.reverse := by
    simp
  rw [h1, dropWhile_ne_slash _ _ (by simpa using h)]
  simp

theorem splitSlash_no_slash_append (pid json' : List Char) (h1 : '/' ∉ pid)
    (h2 : '/' ∉ json') : splitSlash (pid ++ json') = [pid ++ json'] := by
  apply splitSlash_of_no_slash
  intro hc
  rcases List.mem_append.mp hc with hc1 | hc1
  · exact h1 hc1
  · exact h2 hc1

/-- The on-disk path of an execution log under `"/store"`: directly
inside `execution_logs/` and ending in `.json`, provided the plan id
contains no separator. -/
theorem execLogFilePath_shape (pid : String) (h : '/' ∉ pid.toList) :
    goDir (execLogFilePath "/store" pid) = "/store/execution_logs" ∧
    goHasSuffix (execLogFilePath "/store" pid) ".json" = true := by
  have hne : pid ++ ".json" ≠ "" := by
    intro hh
    have h2 := congrArg String.length hh
    rw [String.length_append] at h2
    have h5 : ".json".length = 5 := rfl
    have h0 : ("" : String).length = 0 := rfl
    rw [h5, h0] at h2
    omega
  have hpj : (pid ++ ".json").toList = pid.toList ++ ".json".toList := rfl
  have hnosl : '/' ∉ (pid ++ ".json").toList := by
    rw [hpj]
    intro hc
    rcases List.mem_append.mp hc with hc1 | hc1
    · exact h hc1
    · simp at hc1
  have hwfe : wfe (pid ++ ".json").toList := by
    apply wfe_of_length
    rw [hpj, List.length_append]
    have h5 : (".json".toList).length = 5 := by decide
    omega
  have hsplit : splitSlash ("/store".toList ++ '/' ::
      ("execution_logs".toList ++ '/' :: (pid ++ ".json").toList)) =
      [[], "store".toList, "execution_logs".toList, (pid ++ ".json").toList] := by
    rw [splitSlash_append, splitSlash_append,
      splitSlash_of_no_slash _ hnosl]
    have h1 : splitSlash "/store".toList = [[], "store".toList] := by decide
    have h2 : splitSlash "execution_logs".toList = ["execution_logs".toList] := by decide
    rw [h1, h2]
    rfl
  have hpath : execLogFilePath "/store" pid =
      ⟨"/store/execution_logs/".toList ++ (pid ++ ".json").toList⟩ := by
    unfold execLogFilePath goJoin
    have hfil : (["/store", "execution_logs", pid ++ ".json"].filter (· ≠ "")) =
        ["/store", "execution_logs", pid ++ ".json"] := by
      simp [hne]
    rw [hfil]
    show goClean ⟨joinSlash (List.map String.toList ["/store", "execution_logs", pid ++ ".json"])⟩ =
      ⟨"/store/execution_logs/".toList ++ (pid ++ ".json").toList⟩
    have hjs : joinSlash (List.map String.toList ["/store", "execution_logs", pid ++ ".json"]) =
        "/store".toList ++ '/' :: ("execution_logs".toList ++ '/' :: (pid ++ ".json").toList) := rfl
    rw [hjs]
    simp only [goClean, toList_mk]
    have hroot : isRooted ("/store".toList ++ '/' ::
        ("execution_logs".toList ++ '/' :: (pid ++ ".json").toList)) = true := rfl
    rw [hroot]
    simp only [eq_self_iff_true, if_true, hsplit]
    have hclean : cleanParts true [[], "store".toList, "execution_logs".toList,
        (pid ++ ".json").toList] =
        ["store".toList, "execution_logs".toList, (pid ++ ".json").toList] := by
      unfold cleanParts
      rw [List.foldl_cons, show cleanStep true [] [] = [] by simp [cleanStep],
        foldl_cleanStep_push true _ ?_ []]
      · simp
      · intro q hq
        rcases List.mem_cons.mp hq with h1 | h1
        · rw [h1]; decide
        · rcases List.mem_cons.mp h1 with h2 | h2
          · rw [h2]; decide
          · rw [List.mem_singleton.mp h2]; exact hwfe
    rw [hclean]
    rfl
  constructor
  · rw [hpath]
    unfold goDir
    rw [toList_mk]
    have hsplit2 : "/store/execution_logs/".toList ++ (pid ++ ".json").toList =
        "/store/execution_logs".toList ++ '/' :: (pid ++ ".json").toList := rfl
    rw [hsplit2, dirChars_append _ _ hnosl]
    decide
  · rw [hpath]
    unfold goHasSuffix
    rw [toList_mk]
    have hsuf : ".json".toList <:+ "/store/execution_logs/".toList ++ (pid ++ ".json").toList := by
      rw [hpj, ← List.append_assoc]
      exact List.suffix_append _ _
    exact List.isSuffixOf_iff_suffix.mpr hsuf

/-- C5 (amended) — the file-based store's `SaveExecutionLog` overwrites
the prior log of the same plan id (the store retains only `L2` and the
history query returns only `L2`), while the in-memory store appends
and retains both. -/
theorem C5_save_execution_log (L1 L2 : ExecutionLog)
    (hid : L1.PlanID = L2.PlanID)
    (hpid : '/' ∉ L2.PlanID.toList) :
    (((emptyFileStore "/store").SaveExecutionLog L1).SaveExecutionLog L2).files =
      [(execLogFilePath "/store" L2.PlanID, .logRec L2)] ∧
    (((emptyFileStore "/store").SaveExecutionLog L1).SaveExecutionLog L2).GetExecutionHistory = [L2] ∧
    ((emptyStore.SaveExecutionLog L1).SaveExecutionLog L2).execLogs = [L1, L2] := by
  have hfiles : (((emptyFileStore "/store").SaveExecutionLog L1).SaveExecutionLog L2).files =
      [(execLogFilePath "/store" L2.PlanID, .logRec L2)] := by
    have hkey : execLogFilePath "/store" L1.PlanID = execLogFilePath "/store" L2.PlanID := by
      rw [hid]
    unfold FileOperationStore.SaveExecutionLog emptyFileStore
    simp only [insertKey, hkey]
    rw [if_pos trivial]
  refine ⟨hfiles, ?_, rfl⟩
  obtain ⟨hdir, hsuf⟩ := execLogFilePath_shape L2.PlanID hpid
  have hsd : (((emptyFileStore "/store").SaveExecutionLog L1).SaveExecutionLog L2).storeDir =
      "/store" := rfl
  have hlogsdir : goJoin ["/store", "execution_logs"] = "/store/execution_logs" := by decide
  simp [FileOperationStore.GetExecutionHistory, hfiles, hsd, hlogsdir, hdir, hsuf,
    insertByTsDesc]

theorem C5_save_execution_log_witness :
    (((emptyFileStore "/store").SaveExecutionLog logL1).SaveExecutionLog logL2).files =
      [(execLogFilePath "/store" logL2.PlanID, .logRec logL2)] ∧
    (((emptyFileStore "/store").SaveExecutionLog logL1).SaveExecutionLog logL2).GetExecutionHistory = [logL2] ∧
    ((emptyStore.SaveExecutionLog logL1).SaveExecutionLog logL2).execLogs = [logL1, logL2] :=
  C5_save_execution_log logL1 logL2 rfl (by decide)



/-! ## C9: round-trip and deep-copy isolation of the plan store

Value semantics hides Go's slice aliasing, so the deep-copy behaviour
of `MemoryOperationStore.SavePlan` / `GetPlan` is verified on a model
with an explicit heap of `[]Move` slice cells: a plan holds a cell
index (`movesRef`), the Go code's `planCopy.Moves = make(...); copy(...)`
becomes an allocation of a fresh cell with the same content, and
caller-side mutation is a heap write at the caller's own cell.  The
two functions below are `MemoryOperationStore.SavePlan` and `GetPlan`
with the copies made explicit. -/

namespace AliasModel

structure Heap where
  cells : List (List Move)
  deriving Repr, DecidableEq

def Heap.read (h : Heap) (r : Nat) : List Move := h.cells.getD r []

def Heap.alloc (h : Heap) (xs : List Move) : Heap × Nat :=
  (⟨h.cells ++ [xs]⟩, h.cells.length)

def Heap.write (h : Heap) (r : Nat) (xs : List Move) : Heap :=
  ⟨h.cells.set r xs⟩

/-- A `*ReorganizationPlan` whose `Moves` slice is a heap cell. -/
structure PlanRef where
  ID : String
  Timestamp : Nat
  movesRef : Nat
  Summary : Summary
  Rationale : String
  deriving Repr, DecidableEq

structure Store where
  plans : List (String × PlanRef)
  deriving Repr, DecidableEq

/-- `SavePlan`: `planCopy := *plan; planCopy.Moves = make([]Move, n);
copy(planCopy.Moves, plan.Moves)` — the stored plan points at a fresh
cell holding the same content. -/
def SavePlan (st : Store) (h : Heap) (p : PlanRef) : Store × Heap :=
  let a := h.alloc (h.read p.movesRef)
  (⟨insertKey st.plans p.ID { p with movesRef := a.2 }⟩, a.1)

/-- `GetPlan`: returns a copy of the stored plan with a fresh `Moves`
cell. -/
def GetPlan (st : Store) (h : Heap) (id : String) :
    Except String (PlanRef × Heap) :=
  match lookupKey st.plans id with
  | none => .error ("plan not found: " ++ id)
  | some p =>
    let a := h.alloc (h.read p.movesRef)
    .ok ({ p with movesRef := a.2 }, a.1)

/-- `save-plan` then `get-plan` of the same id. -/
def roundTrip (st : Store) (h : Heap) (p : PlanRef) : Option (PlanRef × Heap) :=
  match GetPlan (SavePlan st h p).1 (SavePlan st h p).2 p.ID with
  | .ok x => some x
  | .error _ => none

/-- After the round trip, mutate both the caller's original slice and
the slice returned by `get-plan`, then `get-plan` again and read the
moves. -/
def mutatedRead (st : Store) (h : Heap) (p : PlanRef) (xs ys : List Move) :
    Option (List Move) :=
  match roundTrip st h p with
  | none => none
  | some (q, h2) =>
    let h3 := (h2.write p.movesRef xs).write q.movesRef ys
    match GetPlan (SavePlan st h p).1 h3 p.ID with
    | .ok (q2, h4) => some (h4.read q2.movesRef)
    | .error _ => none

theorem read_append_self (cells : List (List Move)) (v : List Move) :
    Heap.read ⟨cells ++ [v]⟩ cells.length = v := by
  unfold Heap.read
  simp

theorem read_append_lt (cells tail : List (List Move)) (n : Nat)
    (h : n < cells.length) :
    Heap.read ⟨cells ++ tail⟩ n = Heap.read ⟨cells⟩ n := by
  unfold Heap.read
  rw [List.getD_eq_getElem?_getD, List.getD_eq_getElem?_getD,
    List.getElem?_append_left h]

theorem read_write_ne (h : Heap) (m n : Nat) (xs : List Move) (hne : n ≠ m) :
    (h.write m xs).read n = h.read n := by
  unfold Heap.read Heap.write
  rw [List.getD_eq_getElem?_getD, List.getD_eq_getElem?_getD,
    List.getElem?_set_ne (fun hh => hne hh.symm)]

/-- C9 — `SavePlan` then `GetPlan` round-trips: the returned plan is
deep-equal to the one saved (same scalars, same moves content), and
mutating the slice passed to `SavePlan` or the slice returned by
`GetPlan` does not change the stored value: a later `GetPlan` still
returns the original moves. -/
theorem C9_roundtrip_isolation (st : Store) (h : Heap) (p : PlanRef)
    (hp : p.movesRef < h.cells.length) (xs ys : List Move) :
    (roundTrip st h p).map (fun x => (x.1.ID, x.1.Timestamp, x.1.Summary, x.1.Rationale)) =
      some (p.ID, p.Timestamp, p.Summary, p.Rationale) ∧
    (roundTrip st h p).map (fun x => x.2.read x.1.movesRef) = some (h.read p.movesRef) ∧
    mutatedRead st h p xs ys = some (h.read p.movesRef) := by
  have hsave1 : (SavePlan st h p).1 = ⟨insertKey st.plans p.ID
      { p with movesRef := h.cells.length }⟩ := rfl
  have hsave2 : (SavePlan st h p).2 = ⟨h.cells ++ [h.read p.movesRef]⟩ := rfl
  have hlook : lookupKey (insertKey st.plans p.ID
      { p with movesRef := h.cells.length }) p.ID =
      some { p with movesRef := h.cells.length } := lookupKey_insertKey_self _ _ _
  have hread1 : Heap.read ⟨h.cells ++ [h.read p.movesRef]⟩ h.cells.length =
      h.read p.movesRef := read_append_self _ _
  have hget : GetPlan (SavePlan st h p).1 (SavePlan st h p).2 p.ID =
      .ok ({ p with movesRef := (h.cells ++ [h.read p.movesRef]).length },
        ⟨(h.cells ++ [h.read p.movesRef]) ++ [h.read p.movesRef]⟩) := by
    rw [hsave1, hsave2]
    unfold GetPlan
    rw [hlook]
    simp only [Heap.alloc, hread1]
  have hrt : roundTrip st h p =
      some ({ p with movesRef := (h.cells ++ [h.read p.movesRef]).length },
        ⟨(h.cells ++ [h.read p.movesRef]) ++ [h.read p.movesRef]⟩) := by
    unfold roundTrip
    rw [hget]
  refine ⟨?_, ?_, ?_⟩
  · rw [hrt]; rfl
  · rw [hrt]
    simp only [Option.map_some', Option.some.injEq]
    exact read_append_self _ _
  · unfold mutatedRead
    rw [hrt]
    simp only
    rw [hsave1]
    set v := h.read p.movesRef with hv
    set h3 : Heap := ((⟨(h.cells ++ [v]) ++ [v]⟩ : Heap).write p.movesRef xs).write
      (h.cells ++ [v]).length ys with hh3
    unfold GetPlan
    rw [hlook]
    simp only [Heap.alloc]
    have hr3 : h3.read h.cells.length = v := by
      rw [hh3]
      rw [read_write_ne _ _ _ _ (by
        rw [List.length_append]
        simp)]
      rw [read_write_ne _ _ _ _ (Nat.ne_of_gt hp)]
      have h4 : Heap.read ⟨(h.cells ++ [v]) ++ [v]⟩ h.cells.length = v := by
        rw [read_append_lt _ _ _ (by rw [List.length_append]; simp)]
        exact read_append_self _ _
      exact h4
    rw [hr3]
    simp only [Option.some.injEq]
    exact read_append_self _ _

def exHeap : Heap := ⟨[[⟨"s1", "/x", "/D/x", "m", "FILE_MOVE", 1⟩]]⟩

def exPlan : PlanRef := ⟨"P", 7, 0, ⟨0, 0, 0, "", ""⟩, "r"⟩

theorem C9_roundtrip_isolation_witness :
    (roundTrip ⟨[]⟩ exHeap exPlan).map
      (fun x => (x.1.ID, x.1.Timestamp, x.1.Summary, x.1.Rationale)) =
      some (exPlan.ID, exPlan.Timestamp, exPlan.Summary, exPlan.Rationale) ∧
    (roundTrip ⟨[]⟩ exHeap exPlan).map (fun x => x.2.read x.1.movesRef) =
      some (exHeap.read exPlan.movesRef) ∧
    mutatedRead ⟨[]⟩ exHeap exPlan [] [⟨"z", "", "", "", "CREATE_FOLDER", 0⟩] =
      some (exHeap.read exPlan.movesRef) :=
  C9_roundtrip_isolation ⟨[]⟩ exHeap exPlan (by decide) [] [⟨"z", "", "", "", "CREATE_FOLDER", 0⟩]

end AliasModel


/-! ## C8: the local-disk sandbox (`local_filesystem.go`, doc 1)

Every `LocalFileSystem` operation routes its path arguments through
`resolvePath`, which normalizes them and rejects any path that resolves
outside the configured root.  `resolvePath` is translated below
(`filepath.Rel` never errors on these inputs — both arguments are
absolute once the root is — so only the `strings.HasPrefix(rel, "..")`
rejection remains).  Each operation's syscall trace is modelled by a
`...Touched` function listing the absolute paths the operation hands to
the OS (`os.Stat`, `os.Open`, `os.ReadDir`, `os.MkdirAll`,
`os.RemoveAll`, `os.Rename`); `os.MkdirAll`'s recursive walk to the
first existing ancestor is `mkdirAllTouched`, parametrized by a `stat`
oracle saying which paths currently exist on disk.  Symbolic links are
outside the model: containment is of lexically normalized paths, which
is exactly the check `resolvePath` performs. -/

/-- `strings.TrimPrefix(path, "/")`. -/
def trimSlash (s : String) : String :=
  if goHasPrefix s "/" then (⟨s.toList.drop 1⟩ : String) else s

/-- `LocalFileSystem.resolvePath`: clean, strip one leading slash, join
under the root, clean, and reject unless the result is relative to the
root without an initial `..`. -/
def resolvePath (rootPath path : String) : Except String String :=
  let p2 := trimSlash (goClean path)
  let absPath := goClean (goJoin [rootPath, p2])
  let rel := goRel rootPath absPath
  if goHasPrefix rel ".." then
    .error ("path is outside root directory: " ++ p2)
  else .ok absPath

/-- The stat / mkdir path trace of `os.MkdirAll(p)`: stat `p`; if it is
missing, recurse on the parent, then create `p`.  `fuel` bounds the
walk (any value at least the depth of `p` is exact). -/
def mkdirAllTouched (stat : String → Bool) : Nat → String → List String
  | 0, _ => []
  | fuel + 1, p =>
    if stat p then [p]
    else mkdirAllTouched stat fuel (goDir p) ++ [p]

/-- `List`: `os.ReadDir(absPath)` plus the per-entry paths
`filepath.Join(absPath, entry.Name())`. -/
def lfsListTouched (rootPath path : String) (entries : List String) :
    List String :=
  match resolvePath rootPath path with
  | .error _ => []
  | .ok absPath => absPath :: entries.map (fun n => goJoin [absPath, n])

/-- `Read`: `os.Open(absPath)`. -/
def lfsReadTouched (rootPath path : String) : List String :=
  match resolvePath rootPath path with
  | .error _ => []
  | .ok absPath => [absPath]

/-- `CreateFolder`: `os.MkdirAll(absPath, 0755)`. -/
def lfsCreateFolderTouched (stat : String → Bool) (rootPath path : String) :
    List String :=
  match resolvePath rootPath path with
  | .error _ => []
  | .ok absPath => mkdirAllTouched stat ((pathParts absPath).length + 1) absPath

/-- `Delete`: `os.Stat(absPath)` then `os.RemoveAll(absPath)` (which
removes only `absPath` and its descendants). -/
def lfsDeleteTouched (rootPath path : String) : List String :=
  match resolvePath rootPath path with
  | .error _ => []
  | .ok absPath => [absPath]

/-- `Exists`: `os.Stat(absPath)`. -/
def lfsExistsTouched (rootPath path : String) : List String :=
  match resolvePath rootPath path with
  | .error _ => []
  | .ok absPath => [absPath]

/-- `Move`: `os.Stat(srcPath)`; if the source exists, `os.Stat(dstPath)`;
if the destination is free, `os.MkdirAll(filepath.Dir(dstPath), 0755)`
and `os.Rename(srcPath, dstPath)`. -/
def lfsMoveTouched (stat : String → Bool) (rootPath source destination : String) :
    List String :=
  match resolvePath rootPath source, resolvePath rootPath destination with
  | .ok srcPath, .ok dstPath =>
    if stat srcPath = false then [srcPath]
    else if stat dstPath then [srcPath, dstPath]
    else srcPath :: dstPath ::
      (mkdirAllTouched stat ((pathParts (goDir dstPath)).length + 1)
        (goDir dstPath) ++ [srcPath, dstPath])
  | _, _ => []

/-- The rendering of a cleaned component list as an absolute path. -/
def renderAbs (parts : List (List Char)) : String :=
  ⟨'/' :: joinSlash parts⟩

/-- Well-formed component lists: what `cleanParts true` produces. -/
def wfParts (parts : List (List Char)) : Prop :=
  ∀ p ∈ parts, wfe p ∧ '/' ∉ p

theorem wf_pathParts (s : String) : wfParts (pathParts s) := fun p hp =>
  cleanParts_true_wfe (splitSlash s.toList) (splitSlash_no_slash s.toList) p hp

theorem goClean_rooted (s : String) (h : isRooted s.toList = true) :
    goClean s = renderAbs (pathParts s) := by
  simp only [goClean, renderAbs, pathParts, h, if_true]

theorem isRooted_goClean (s : String) (h : isRooted s.toList = true) :
    isRooted (goClean s).toList = true := by
  rw [goClean_rooted s h]
  rfl

theorem splitSlash_slash_cons (xs : List Char) :
    splitSlash ('/' :: xs) = [] :: splitSlash xs := by
  simp only [splitSlash]
  cases h : splitSlash xs with
  | nil => exact absurd h (splitSlash_ne_nil xs)
  | cons a t => simp

theorem cleanParts_true_cons_nil (l : List (List Char)) :
    cleanParts true ([] :: l) = cleanParts true l := by
  unfold cleanParts
  rw [List.foldl_cons, show cleanStep true [] [] = [] by simp [cleanStep]]

theorem cleanParts_true_append_nil (l : List (List Char)) :
    cleanParts true (l ++ [[]]) = cleanParts true l := by
  unfold cleanParts
  rw [List.foldl_append]
  simp [cleanStep]

theorem pathParts_renderAbs (parts : List (List Char)) (hw : wfParts parts) :
    pathParts (renderAbs parts) = parts := by
  by_cases hne : parts = []
  · subst hne; decide
  · unfold pathParts renderAbs
    rw [toList_mk, splitSlash_slash_cons,
      splitSlash_joinSlash parts (fun q hq => (hw q hq).2) hne,
      cleanParts_true_cons_nil]
    exact cleanParts_fix_rooted parts (fun q hq => (hw q hq).1)

theorem commonPrefixLen_le_left (a : List (List Char)) :
    ∀ b, commonPrefixLen a b ≤ a.length := by
  induction a with
  | nil => intro b; cases b <;> simp [commonPrefixLen]
  | cons x xs ih =>
    intro b
    cases b with
    | nil => simp [commonPrefixLen]
    | cons y ys =>
      simp only [commonPrefixLen, List.length_cons]
      by_cases h : x = y
      · rw [if_pos h]
        exact Nat.succ_le_succ (ih ys)
      · rw [if_neg h]
        omega

theorem commonPrefixLen_isPrefix (a : List (List Char)) :
    ∀ b, a.length ≤ commonPrefixLen a b → a.IsPrefix b := by
  induction a with
  | nil => intro b _; exact List.nil_prefix
  | cons x xs ih =>
    intro b h
    cases b with
    | nil => simp [commonPrefixLen] at h
    | cons y ys =>
      simp only [commonPrefixLen, List.length_cons] at h
      by_cases hxy : x = y
      · rw [if_pos hxy] at h
        exact List.cons_prefix_cons.mpr ⟨hxy, ih ys (Nat.le_of_succ_le_succ h)⟩
      · rw [if_neg hxy] at h
        omega

theorem isPrefixOf_joinSlash_head (p : List Char) (rest : List (List Char)) :
    p.isPrefixOf (joinSlash (p :: rest)) = true := by
  rw [List.isPrefixOf_iff_prefix]
  cases rest with
  | nil => exact List.prefix_refl p
  | cons q t =>
    rw [show joinSlash (p :: q :: t) = p ++ '/' :: joinSlash (q :: t) from rfl]
    exact List.prefix_append p _

/-- If `filepath.Rel(base, targ)` does not begin with `..`, the cleaned
components of `base` are a prefix of those of `targ`. -/
theorem goRel_within (base targ : String)
    (h : goHasPrefix (goRel base targ) ".." = false) :
    (pathParts (goClean base)).IsPrefix (pathParts (goClean targ)) := by
  simp only [goRel] at h
  set b := pathParts (goClean base) with hb
  set t := pathParts (goClean targ) with ht
  by_cases hk : b.length - commonPrefixLen b t = 0
  · exact commonPrefixLen_isPrefix b t (by omega)
  · exfalso
    obtain ⟨k, hk2⟩ : ∃ k, b.length - commonPrefixLen b t = k + 1 :=
      ⟨b.length - commonPrefixLen b t - 1, by omega⟩
    rw [hk2, List.replicate_succ, List.cons_append, if_neg (by simp)] at h
    unfold goHasPrefix at h
    rw [toList_mk] at h
    have h2 : (['.', '.'] : List Char).isPrefixOf
        (joinSlash (['.', '.'] :: (List.replicate k ['.', '.'] ++
          t.drop (commonPrefixLen b t)))) = false := h
    rw [isPrefixOf_joinSlash_head] at h2
    simp at h2

theorem resolvePath_ok_shape (rootPath path abs : String)
    (hok : resolvePath rootPath path = .ok abs) :
    abs = goClean (goJoin [rootPath, trimSlash (goClean path)]) ∧
    goHasPrefix (goRel rootPath abs) ".." = false := by
  simp only [resolvePath] at hok
  split at hok
  · exact absurd hok (by simp)
  · next hcond =>
    have habs := (Except.ok.inj hok).symm
    refine ⟨habs, ?_⟩
    rw [habs]
    exact Bool.not_eq_true _ ▸ hcond

/-- Soundness of the sandbox check: any path `resolvePath` accepts is
within the root. -/
theorem resolvePath_within (rootPath path abs : String)
    (hr : isRooted rootPath.toList = true)
    (hok : resolvePath rootPath path = .ok abs) :
    withinRoot rootPath abs := by
  obtain ⟨habs, hrel⟩ := resolvePath_ok_shape rootPath path abs hok
  have h1 := goRel_within rootPath abs hrel
  have h2 : pathParts (goClean rootPath) = pathParts rootPath := by
    rw [goClean_rooted rootPath hr, pathParts_renderAbs _ (wf_pathParts rootPath)]
  have h3 : goClean abs = abs := by
    rw [habs]
    exact goClean_idem _
  rw [h2, h3] at h1
  exact h1

theorem head_of_isRooted (cs : List Char) (h : isRooted cs = true) :
    cs.head? = some '/' := by
  cases cs with
  | nil => simp [isRooted] at h
  | cons c t =>
    by_cases hc : c = '/'
    · rw [hc]; rfl
    · rw [isRooted_cons_ne c t hc] at h
      simp at h

theorem isRooted_of_head (cs : List Char) (h : cs.head? = some '/') :
    isRooted cs = true := by
  cases cs with
  | nil => simp at h
  | cons c t =>
    simp only [List.head?_cons, Option.some.injEq] at h
    rw [h]
    rfl

theorem isRooted_goJoin (rootPath s : String)
    (hr : isRooted rootPath.toList = true) :
    isRooted (goJoin [rootPath, s]).toList = true := by
  have hrne : rootPath ≠ "" := by
    intro hh
    rw [hh] at hr
    exact absurd hr (by decide)
  obtain ⟨rs, hrs⟩ : ∃ rs, rootPath.toList = '/' :: rs := by
    have := head_of_isRooted rootPath.toList hr
    cases hcs : rootPath.toList with
    | nil => rw [hcs] at this; simp at this
    | cons c t =>
      rw [hcs] at this
      simp only [List.head?_cons, Option.some.injEq] at this
      exact ⟨t, by rw [this]⟩
  have hfil : [rootPath, s].filter (· ≠ "") =
      if s = "" then [rootPath] else [rootPath, s] := by
    by_cases hs : s = "" <;> simp [hs, hrne]
  simp only [goJoin]
  rw [hfil]
  by_cases hs : s = ""
  · rw [if_pos hs]
    show isRooted (goClean ⟨joinSlash [rootPath.toList]⟩).toList = true
    rw [show (⟨joinSlash [rootPath.toList]⟩ : String) = rootPath from rfl]
    exact isRooted_goClean _ hr
  · rw [if_neg hs]
    show isRooted (goClean ⟨joinSlash [rootPath.toList, s.toList]⟩).toList = true
    apply isRooted_goClean
    rw [toList_mk,
      show joinSlash [rootPath.toList, s.toList] =
        rootPath.toList ++ '/' :: s.toList from rfl, hrs]
    rfl

theorem resolvePath_abs_render (rootPath path abs : String)
    (hr : isRooted rootPath.toList = true)
    (hok : resolvePath rootPath path = .ok abs) :
    abs = renderAbs (pathParts abs) ∧ isRooted abs.toList = true := by
  obtain ⟨habs, -⟩ := resolvePath_ok_shape rootPath path abs hok
  have h2 : isRooted abs.toList = true := by
    rw [habs]
    exact isRooted_goClean _ (isRooted_goJoin rootPath _ hr)
  have h4 : goClean abs = abs := by
    rw [habs]
    exact goClean_idem _
  exact ⟨h4.symm.trans (goClean_rooted abs h2), h2⟩

theorem joinSlash_concat (init : List (List Char)) (last : List Char)
    (h : init ≠ []) :
    joinSlash (init ++ [last]) = joinSlash init ++ '/' :: last := by
  induction init with
  | nil => exact absurd rfl h
  | cons p rest ih =>
    cases rest with
    | nil => rfl
    | cons q t =>
      rw [List.cons_append,
        show joinSlash (p :: (q :: t ++ [last])) =
          p ++ '/' :: joinSlash (q :: t ++ [last]) from rfl,
        ih (by simp),
        show joinSlash (p :: q :: t) = p ++ '/' :: joinSlash (q :: t) from rfl]
      simp

/-- `filepath.Dir` of a rendered absolute path drops its final
component. -/
theorem goDir_renderAbs (init : List (List Char)) (last : List Char)
    (hw : wfParts (init ++ [last])) :
    goDir (renderAbs (init ++ [last])) = renderAbs init := by
  have hlast : '/' ∉ last := (hw last (by simp)).2
  by_cases hinit : init = []
  · subst hinit
    unfold goDir renderAbs
    rw [toList_mk, List.nil_append,
      show joinSlash [last] = last from rfl,
      show ('/' :: last : List Char) = [] ++ '/' :: last from rfl,
      dirChars_append [] last hlast]
    decide
  · unfold goDir renderAbs
    rw [toList_mk, joinSlash_concat init last hinit,
      show ('/' :: (joinSlash init ++ '/' :: last) : List Char) =
        ('/' :: joinSlash init) ++ '/' :: last from by simp,
      dirChars_append _ last hlast]
    have hwinit : wfParts init := fun q hq => hw q (by simp [hq])
    have hroot : isRooted
        (⟨('/' :: joinSlash init) ++ ['/']⟩ : String).toList = true := by
      rw [toList_mk]
      rfl
    rw [goClean_rooted _ hroot]
    have hpp : pathParts (⟨('/' :: joinSlash init) ++ ['/']⟩ : String) = init := by
      unfold pathParts
      rw [toList_mk,
        show (['/'] : List Char) = '/' :: [] from rfl,
        splitSlash_append, splitSlash_slash_cons,
        splitSlash_joinSlash init (fun q hq => (hwinit q hq).2) hinit,
        show splitSlash [] = [[]] from rfl,
        show ([] :: init) ++ [[]] = [] :: (init ++ [[]]) from rfl,
        cleanParts_true_cons_nil, cleanParts_true_append_nil]
      exact cleanParts_fix_rooted init (fun q hq => (hwinit q hq).1)
    unfold renderAbs
    rw [hpp]

theorem dropLast_append_cons {α : Type} :
    ∀ (a : List α) (x : α) (ts : List α),
    (a ++ x :: ts).dropLast = a ++ (x :: ts).dropLast
  | [], _, _ => rfl
  | y :: ys, x, ts => by
    rw [List.cons_append]
    cases hys : ys ++ x :: ts with
    | nil => simp at hys
    | cons z zs =>
      rw [show (y :: z :: zs).dropLast = y :: (z :: zs).dropLast from rfl,
        ← hys, dropLast_append_cons ys x ts]
      rfl

theorem isPrefix_dropLast {α : Type} (a l : List α) (h : a.IsPrefix l)
    (hne : a ≠ l) : a.IsPrefix l.dropLast := by
  obtain ⟨t, ht⟩ := h
  cases t with
  | nil =>
    rw [List.append_nil] at ht
    exact absurd ht hne
  | cons x ts =>
    rw [← ht, dropLast_append_cons]
    exact ⟨(x :: ts).dropLast, rfl⟩

theorem goDir_renderAbs_dropLast (parts : List (List Char)) (hw : wfParts parts)
    (hne : parts ≠ []) :
    goDir (renderAbs parts) = renderAbs parts.dropLast := by
  conv_lhs => rw [← List.dropLast_append_getLast hne]
  rw [goDir_renderAbs parts.dropLast (parts.getLast hne)
    (by rw [List.dropLast_append_getLast hne]; exact hw)]

/-- Every path `os.MkdirAll` stats or creates while building a
within-root directory is itself within the root, provided the root
exists on disk. -/
theorem mkdirAllTouched_within (stat : String → Bool) (root : String)
    (hrs : stat root = true) (hrender : root = renderAbs (pathParts root)) :
    ∀ (fuel : Nat) (parts : List (List Char)), wfParts parts →
    (pathParts root).IsPrefix parts →
    ∀ q ∈ mkdirAllTouched stat fuel (renderAbs parts), withinRoot root q := by
  intro fuel
  induction fuel with
  | zero =>
    intro parts _ _ q hq
    simp [mkdirAllTouched] at hq
  | succ n ih =>
    intro parts hw hpre q hq
    have hwithin : withinRoot root (renderAbs parts) := by
      unfold withinRoot
      rw [pathParts_renderAbs parts hw]
      exact hpre
    simp only [mkdirAllTouched] at hq
    by_cases hst : stat (renderAbs parts) = true
    · rw [if_pos hst] at hq
      rw [List.mem_singleton.mp hq]
      exact hwithin
    · rw [if_neg hst] at hq
      rcases List.mem_append.mp hq with hq1 | hq1
      · have hne : parts ≠ pathParts root := by
          intro he
          apply hst
          rw [he, ← hrender]
          exact hrs
        have hpne : parts ≠ [] := by
          intro he
          apply hne
          rw [he]
          exact (List.prefix_nil.mp (he ▸ hpre)).symm
        rw [goDir_renderAbs_dropLast parts hw hpne] at hq1
        refine ih parts.dropLast (fun r hr => hw r (List.dropLast_sublist parts |>.mem hr)) ?_ q hq1
        exact isPrefix_dropLast _ _ hpre (fun he => hne he.symm)
      · rw [List.mem_singleton.mp hq1]
        exact hwithin

/-- Joining a proper directory-entry name under a within-root rendered
path stays within the root. -/
theorem withinRoot_goJoin_entry (root abs n : String)
    (habs : abs = renderAbs (pathParts abs)) (hin : withinRoot root abs)
    (hnw : wfe n.toList) (hns : '/' ∉ n.toList) :
    withinRoot root (goJoin [abs, n]) := by
  have hane : abs ≠ "" := by
    rw [habs]
    intro hh
    have h2 := congrArg String.toList hh
    rw [toList_mk] at h2
    simp [renderAbs] at h2
  have hnne : n ≠ "" := by
    intro hh
    apply hnw.1
    rw [hh]
    rfl
  have hfil : [abs, n].filter (· ≠ "") = [abs, n] := by simp [hane, hnne]
  simp only [goJoin]
  rw [hfil]
  show withinRoot root (goClean ⟨joinSlash [abs.toList, n.toList]⟩)
  rw [show joinSlash [abs.toList, n.toList] = abs.toList ++ '/' :: n.toList from rfl]
  have habsl : abs.toList = '/' :: joinSlash (pathParts abs) := by
    conv_lhs => rw [habs]
    rfl
  have hroot2 : isRooted (⟨abs.toList ++ '/' :: n.toList⟩ : String).toList = true := by
    rw [toList_mk, habsl]
    rfl
  rw [goClean_rooted _ hroot2]
  have hwabs : wfParts (pathParts abs) := wf_pathParts abs
  have hwext : wfParts (pathParts abs ++ [n.toList]) := by
    intro q hq
    rcases List.mem_append.mp hq with hq1 | hq1
    · exact hwabs q hq1
    · rw [List.mem_singleton.mp hq1]
      exact ⟨hnw, hns⟩
  have hpp : pathParts (⟨abs.toList ++ '/' :: n.toList⟩ : String) =
      pathParts abs ++ [n.toList] := by
    rw [show pathParts (⟨abs.toList ++ '/' :: n.toList⟩ : String) =
      cleanParts true (splitSlash (abs.toList ++ '/' :: n.toList)) from rfl]
    rw [habsl, List.cons_append, splitSlash_slash_cons,
      splitSlash_append, splitSlash_of_no_slash n.toList hns]
    by_cases hnil : pathParts abs = []
    · rw [hnil]
      rw [show joinSlash ([] : List (List Char)) = [] from rfl,
        show splitSlash ([] : List Char) = [[]] from rfl]
      rw [cleanParts_true_cons_nil]
      rw [show ([[]] ++ [n.toList] : List (List Char)) = [] :: [n.toList] from rfl,
        cleanParts_true_cons_nil]
      exact cleanParts_fix_rooted [n.toList] (fun q hq => by
        rw [List.mem_singleton.mp hq]; exact hnw)
    · rw [splitSlash_joinSlash (pathParts abs) (fun q hq => (hwabs q hq).2) hnil,
        cleanParts_true_cons_nil]
      exact cleanParts_fix_rooted _ (fun q hq => (hwext q hq).1)
  unfold withinRoot
  rw [pathParts_renderAbs _ (hpp ▸ hwext), hpp]
  exact hin.trans (List.prefix_append _ _)

theorem all_withinRoot (root : String) (l : List String)
    (h : ∀ q ∈ l, withinRoot root q) :
    l.all (fun q => decide (withinRoot root q)) = true := by
  rw [List.all_eq_true]
  intro q hq
  exact decide_eq_true (h q hq)

/-- C8 — local-disk sandbox: `resolvePath` accepts only paths whose
normalized form lies within the configured root, and every path each
`LocalFileSystem` operation (list, read, move, create-directory,
delete, exists) hands to the OS — including the per-entry paths of
`List`, the ancestors `os.MkdirAll` stats or creates, and `Move`'s
rename endpoints — is within the root.  `stat` is the set of paths
existing on disk; the root must be an absolute cleaned path that
exists, as `NewLocalFileSystem` establishes.  Containment is of
lexically normalized paths (symlinks are outside the model), and
`List`'s directory entries are proper names (non-empty, not `.` or
`..`, no separator), as `os.ReadDir` guarantees. -/
theorem C8_sandbox (root : String) (stat : String → Bool)
    (hr : isRooted root.toList = true) (hc : goClean root = root)
    (hstat : stat root = true) :
    (∀ path abs, resolvePath root path = Except.ok abs → withinRoot root abs) ∧
    (∀ path entries, (∀ e ∈ entries, wfe e.toList ∧ '/' ∉ e.toList) →
      (lfsListTouched root path entries).all
        (fun q => decide (withinRoot root q)) = true) ∧
    (∀ path, (lfsReadTouched root path).all
      (fun q => decide (withinRoot root q)) = true) ∧
    (∀ path, (lfsCreateFolderTouched stat root path).all
      (fun q => decide (withinRoot root q)) = true) ∧
    (∀ path, (lfsDeleteTouched root path).all
      (fun q => decide (withinRoot root q)) = true) ∧
    (∀ path, (lfsExistsTouched root path).all
      (fun q => decide (withinRoot root q)) = true) ∧
    (∀ source destination,
      (lfsMoveTouched stat root source destination).all
        (fun q => decide (withinRoot root q)) = true) := by
  have hrender : root = renderAbs (pathParts root) :=
    hc.symm.trans (goClean_rooted root hr)
  refine ⟨fun path abs hok => resolvePath_within root path abs hr hok,
    ?_, ?_, ?_, ?_, ?_, ?_⟩
  · intro path entries hent
    apply all_withinRoot
    intro q hq
    unfold lfsListTouched at hq
    cases hrp : resolvePath root path with
    | error e =>
      rw [hrp] at hq
      exact absurd (show q ∈ ([] : List String) from hq) (by simp)
    | ok abs =>
      rw [hrp] at hq
      have hq1 : q ∈ abs :: entries.map (fun n => goJoin [abs, n]) := hq
      rcases List.mem_cons.mp hq1 with h1 | h1
      · rw [h1]
        exact resolvePath_within root path abs hr hrp
      · obtain ⟨n, hn, hqn⟩ := List.mem_map.mp h1
        rw [← hqn]
        exact withinRoot_goJoin_entry root abs n
          (resolvePath_abs_render root path abs hr hrp).1
          (resolvePath_within root path abs hr hrp)
          (hent n hn).1 (hent n hn).2
  · intro path
    apply all_withinRoot
    intro q hq
    unfold lfsReadTouched at hq
    cases hrp : resolvePath root path with
    | error e =>
      rw [hrp] at hq
      exact absurd (show q ∈ ([] : List String) from hq) (by simp)
    | ok abs =>
      rw [hrp] at hq
      rw [List.mem_singleton.mp (show q ∈ [abs] from hq)]
      exact resolvePath_within root path abs hr hrp
  · intro path
    apply all_withinRoot
    intro q hq
    unfold lfsCreateFolderTouched at hq
    cases hrp : resolvePath root path with
    | error e =>
      rw [hrp] at hq
      exact absurd (show q ∈ ([] : List String) from hq) (by simp)
    | ok abs =>
      rw [hrp] at hq
      have hq1 : q ∈ mkdirAllTouched stat ((pathParts abs).length + 1) abs := hq
      rw [(resolvePath_abs_render root path abs hr hrp).1] at hq1
      exact mkdirAllTouched_within stat root hstat hrender _ (pathParts abs)
        (wf_pathParts abs) (resolvePath_within root path abs hr hrp) q hq1
  · intro path
    apply all_withinRoot
    intro q hq
    unfold lfsDeleteTouched at hq
    cases hrp : resolvePath root path with
    | error e =>
      rw [hrp] at hq
      exact absurd (show q ∈ ([] : List String) from hq) (by simp)
    | ok abs =>
      rw [hrp] at hq
      rw [List.mem_singleton.mp (show q ∈ [abs] from hq)]
      exact resolvePath_within root path abs hr hrp
  · intro path
    apply all_withinRoot
    intro q hq
    unfold lfsExistsTouched at hq
    cases hrp : resolvePath root path with
    | error e =>
      rw [hrp] at hq
      exact absurd (show q ∈ ([] : List String) from hq) (by simp)
    | ok abs =>
      rw [hrp] at hq
      rw [List.mem_singleton.mp (show q ∈ [abs] from hq)]
      exact resolvePath_within root path abs hr hrp
  · intro source destination
    apply all_withinRoot
    intro q hq
    unfold lfsMoveTouched at hq
    cases hs : resolvePath root source with
    | error e =>
      rw [hs] at hq
      exact absurd (show q ∈ ([] : List String) from hq) (by simp)
    | ok srcPath =>
      cases hd : resolvePath root destination with
      | error e =>
        rw [hs, hd] at hq
        exact absurd (show q ∈ ([] : List String) from hq) (by simp)
      | ok dstPath =>
        rw [hs, hd] at hq
        have hsw := resolvePath_within root source srcPath hr hs
        have hdw := resolvePath_within root destination dstPath hr hd
        have hq1 : q ∈ (if stat srcPath = false then [srcPath]
            else if stat dstPath then [srcPath, dstPath]
            else srcPath :: dstPath ::
              (mkdirAllTouched stat ((pathParts (goDir dstPath)).length + 1)
                (goDir dstPath) ++ [srcPath, dstPath])) := hq
        by_cases hss : stat srcPath = false
        · rw [if_pos hss] at hq1
          rw [List.mem_singleton.mp hq1]
          exact hsw
        · rw [if_neg hss] at hq1
          by_cases hds : stat dstPath = true
          · rw [if_pos hds] at hq1
            rcases List.mem_cons.mp hq1 with h1 | h1
            · rw [h1]; exact hsw
            · rw [List.mem_singleton.mp h1]; exact hdw
          · rw [if_neg hds] at hq1
            rcases List.mem_cons.mp hq1 with h1 | h1
            · rw [h1]; exact hsw
            rcases List.mem_cons.mp h1 with h2 | h2
            · rw [h2]; exact hdw
            rcases List.mem_append.mp h2 with h3 | h3
            · have hdne : dstPath ≠ root := by
                intro he
                apply hds
                rw [he]
                exact hstat
              have hdren := (resolvePath_abs_render root destination dstPath hr hd).1
              have hppne : pathParts dstPath ≠ pathParts root := by
                intro he
                apply hdne
                rw [hdren, he, ← hrender]
              have hpne : pathParts dstPath ≠ [] := by
                intro he
                apply hppne
                have h4 : (pathParts root).IsPrefix (pathParts dstPath) := hdw
                rw [he] at h4 ⊢
                exact (List.prefix_nil.mp h4).symm
              have hgd : goDir dstPath = renderAbs ((pathParts dstPath).dropLast) := by
                conv_lhs => rw [hdren]
                exact goDir_renderAbs_dropLast (pathParts dstPath)
                  (wf_pathParts dstPath) hpne
              rw [hgd] at h3
              refine mkdirAllTouched_within stat root hstat hrender _
                ((pathParts dstPath).dropLast)
                (fun r hrm => wf_pathParts dstPath r
                  ((List.dropLast_sublist _).mem hrm)) ?_ q h3
              exact isPrefix_dropLast _ _ hdw (fun he => hppne he.symm)
            rcases List.mem_cons.mp h3 with h4 | h4
            · rw [h4]; exact hsw
            · rw [List.mem_singleton.mp h4]; exact hdw

theorem C8_sandbox_witness :
    withinRoot "/data" "/data/docs/a.txt" ∧
    (lfsMoveTouched (fun p => p == "/data") "/data" "/a.txt" "/docs/b/a.txt").all
      (fun q => decide (withinRoot "/data" q)) = true :=
  ⟨(C8_sandbox "/data" (fun p => p == "/data") (by decide) (by decide)
      (by decide)).1 "/docs/a.txt" "/data/docs/a.txt" (by decide),
    (C8_sandbox "/data" (fun p => p == "/data") (by decide) (by decide)
      (by decide)).2.2.2.2.2.2 "/a.txt" "/docs/b/a.txt"⟩

end Curator
